import Mathlib

/-!
# Verification of the random-hypergraph generation repository

Shallow embedding of the repository's core algorithms:

* `FirstMethod.py` — `generate_random_hypergraph_from_scratch`: Bernoulli
  membership sampling, empty-hyperedge removal, largest connected component of
  the intersection graph, pairwise subset removal.
* `SecondMethod.py` — `generate_random_hypergraph_from_a_tree`: BFS bipartition
  of a sampled tree, initial hyperedges from tree edges, Bernoulli vertex
  addition, optional Sperner (proper-subset) reduction.
* `writeHGtoFile.py` — `export_hg_to_dat`: text serialization, one hyperedge
  per line, ids space-separated, each line newline-terminated.

Randomness is modelled by passing the random draws explicitly: the sampled
tree is an arbitrary edge list with an arbitrary root, and the stream of
`random.random()` values is an arbitrary function into `ℚ` (the source draws
values in `[0, 1)`).  Python `set`s of small integers have unspecified
iteration order; where the source iterates such a set the embedding fixes
ascending order, which never affects the properties proved here.
-/

namespace HG

/-! ## Serializer (`writeHGtoFile.py`) and the spec's line format

The file content is modelled as a `List Char`.  Hyperedges are modelled as
lists of integers (the iteration order of the Python `set` of tuples is an
arbitrary enumeration, so the serializer takes a `List (List ℤ)`). -/

/-- The character Python's `str` produces for a decimal digit `d ≤ 9`. -/
def digitChar (d : ℕ) : Char :=
  Char.ofNat (48 + d)

/-- Decimal representation of a natural number, as Python's `str(n)`:
most-significant digit first, no leading zeros, `"0"` for zero. -/
def natChars (n : ℕ) : List Char :=
  if n < 10 then [digitChar n]
  else natChars (n / 10) ++ [digitChar (n % 10)]
termination_by n
decreasing_by
  exact Nat.div_lt_self (by omega) (by omega)

/-- Decimal representation of an integer, as Python's `str(z)`. -/
def intChars (z : ℤ) : List Char :=
  if z < 0 then '-' :: natChars z.natAbs else natChars z.natAbs

/-- Python's `" ".join`: tokens separated by single spaces. -/
def joinSpace : List (List Char) → List Char
  | [] => []
  | [t] => t
  | t :: ts => t ++ ' ' :: joinSpace ts

/-- `export_hg_to_dat` from `writeHGtoFile.py`: for each hyperedge write the
space-joined vertex ids followed by a newline. -/
def export_hg_to_dat (hg : List (List ℤ)) : List Char :=
  (hg.map (fun vertices => joinSpace (vertices.map intChars) ++ ['\n'])).flatten

/-- Split a character list at every occurrence of `c` (Python
`str.split(c)`): always returns one more part than there are separators. -/
def splitOnChar (c : Char) : List Char → List (List Char)
  | [] => [[]]
  | a :: rest =>
    if a = c then [] :: splitOnChar c rest
    else
      match splitOnChar c rest with
      | [] => [[a]]
      | t :: ts => (a :: t) :: ts

/-- Decimal value of a digit token, as Python's `int` on a digit string. -/
def parseNat (t : List Char) : ℕ :=
  t.foldl (fun acc c => 10 * acc + (c.toNat - 48)) 0

/-- Modelled from the spec: `int(token)` for an optionally `-`-signed decimal
token, used by the round-trip parse (the parsing side is described in the
spec only; the repository contains no reader for `.dat` files). -/
def parseInt (t : List Char) : ℤ :=
  if t.head? = some '-' then -(parseNat t.tail : ℤ) else (parseNat t : ℤ)

/-- Modelled from the spec: the lines of a text file whose every line is
newline-terminated (the serializer terminates every line with `'\n'`). -/
def fileLines (s : List Char) : List (List Char) :=
  (splitOnChar '\n' s).dropLast

/-- Modelled from the spec: split one line on whitespace (Python `.split()`
drops empty tokens) and map the tokens to integers. -/
def parseLine (l : List Char) : List ℤ :=
  ((splitOnChar ' ' l).filter (fun t => ¬ t.isEmpty)).map parseInt

/-- Modelled from the spec: parse a whole `.dat` file back into a hypergraph. -/
def parseFile (s : List Char) : List (List ℤ) :=
  (fileLines s).map parseLine

/-! ## Scratch generator (`FirstMethod.py`) -/

/-- One candidate hyperedge: node `node` of `range num_nodes` is included when
the `random.random()` draw consumed for the pair `(i, node)` is below `p`;
the source consumes the stream in row-major order, so that draw is stream
position `i * num_nodes + node`. -/
def bernoulliRow (num_nodes : ℕ) (p : ℚ) (rand : ℕ → ℚ) (i : ℕ) : List ℕ :=
  (List.range num_nodes).filter (fun node => rand (i * num_nodes + node) < p)

/-- The candidate hyperedges built by the sampling loop. -/
def rawHypergraph (num_nodes num_hyperedges : ℕ) (p : ℚ) (rand : ℕ → ℚ) :
    List (List ℕ) :=
  (List.range num_hyperedges).map (bernoulliRow num_nodes p rand)

/-- Removal of empty hyperedges: the source collects the indices of empty
rows and pops them in decreasing order, which keeps exactly the nonempty
rows in their original order. -/
def dropEmpty (L : List (List ℕ)) : List (List ℕ) :=
  L.filter (fun h => ¬ h.isEmpty)

/-- Intersection-graph adjacency on row indices:
`set(hypergraph[a]) & set(hypergraph[b])` is truthy iff the intersection is
nonempty. -/
def interAdj (L : List (List ℕ)) (a b : ℕ) : Bool :=
  decide (((L.getD a []).toFinset ∩ (L.getD b []).toFinset).Nonempty)

/-- The stack-based reachability search of the source: pop a row index; if
unvisited, add it to the current component and push its unvisited neighbors.
The source pushes neighbor indices in ascending order onto the end of a
Python list and pops from the end, so the most recently pushed index is
popped first; the head of `stack` models the top. -/
def dfsLoop (n : ℕ) (adj : ℕ → ℕ → Bool) :
    ℕ → Finset (Fin n) → Finset (Fin n) → List (Fin n) →
      Finset (Fin n) × Finset (Fin n)
  | 0, visited, component, _ => (visited, component)
  | _ + 1, visited, component, [] => (visited, component)
  | fuel + 1, visited, component, node :: rest =>
    if node ∈ visited then dfsLoop n adj fuel visited component rest
    else
      dfsLoop n adj fuel (insert node visited) (insert node component)
        (((List.finRange n).filter
            (fun j => decide (j ∉ insert node visited) && adj node.val j.val)).reverse ++ rest)

/-- The outer loop over row indices: start a fresh search at every index not
yet visited, collecting the components in order.  The fuel `n * (n + 2) + 1`
always exceeds the measure of the search (`dfsLoop_fuel_stable` below), so
the fueled search is the source's unbounded while-loop. -/
def ccLoop (n : ℕ) (adj : ℕ → ℕ → Bool) :
    List (Fin n) → Finset (Fin n) → List (Finset (Fin n)) → List (Finset (Fin n))
  | [], _, acc => acc
  | i :: rest, visited, acc =>
    if i ∈ visited then ccLoop n adj rest visited acc
    else
      ccLoop n adj rest (dfsLoop n adj (n * (n + 2) + 1) visited ∅ [i]).1
        (acc ++ [(dfsLoop n adj (n * (n + 2) + 1) visited ∅ [i]).2])

/-- The connected components of the intersection graph of `L`, in discovery
order. -/
def connectedComponents (L : List (List ℕ)) : List (Finset (Fin L.length)) :=
  ccLoop L.length (interAdj L) (List.finRange L.length) ∅ []

/-- Python's `max(components, key=len)`: the first component of maximal size,
or `none` on an empty list (where the source raises `ValueError`). -/
def largestComponent {α : Type} (comps : List (Finset α)) : Option (Finset α) :=
  match comps with
  | [] => none
  | c :: cs => some (cs.foldl (fun b x => if b.card < x.card then x else b) c)

/-- The inner loop of the `make_simple` pass at row `i`, scanning the
remaining indices `js` (`range(i+1, len)` at the call site): if row `i` is a
subset of row `j`, mark `i` and break; else if row `j` is a subset of row
`i`, mark `j` and continue. -/
def simpleInner (L : List (List ℕ)) (i : ℕ) : List ℕ → Finset ℕ → Finset ℕ
  | [], m => m
  | j :: js, m =>
    if (L.getD i []).toFinset ⊆ (L.getD j []).toFinset then insert i m
    else if (L.getD j []).toFinset ⊆ (L.getD i []).toFinset then
      simpleInner L i js (insert j m)
    else simpleInner L i js m

/-- The indices the `make_simple` pass removes. -/
def simpleMarks (L : List (List ℕ)) : Finset ℕ :=
  (List.range L.length).foldl
    (fun m i => simpleInner L i (List.range' (i + 1) (L.length - (i + 1))) m) ∅

/-- The rows surviving the `make_simple` pass, in order (the source pops the
marked indices in decreasing order). -/
def makeSimple (L : List (List ℕ)) : List (List ℕ) :=
  (List.range L.length).filterMap
    (fun i => if i ∈ simpleMarks L then none else some (L.getD i []))

/-- The final `set(map(tuple, hypergraph))`, after the optional
`make_simple` pass. -/
def simpleStep (make_simple : Bool) (L : List (List ℕ)) : Finset (List ℕ) :=
  (if make_simple then makeSimple L else L).toFinset

/-- `generate_random_hypergraph_from_scratch` from `FirstMethod.py`.
`rand` is the stream of `random.random()` draws.  When `make_connected` is
set and no hyperedge survives the empty-row removal, the source calls
`max` on an empty list of components and raises `ValueError`. -/
def generate_random_hypergraph_from_scratch (num_nodes num_hyperedges : ℕ)
    (p : ℚ) (rand : ℕ → ℚ) (make_simple make_connected : Bool) :
    Except String (Finset (List ℕ)) :=
  if make_connected then
    match largestComponent (connectedComponents
        (dropEmpty (rawHypergraph num_nodes num_hyperedges p rand))) with
    | none => .error "max() arg is an empty sequence"
    | some comp =>
      .ok (simpleStep make_simple ((comp.sort (· ≤ ·)).map
        (fun i => (dropEmpty (rawHypergraph num_nodes num_hyperedges p rand)).get i)))
  else .ok (simpleStep make_simple (dropEmpty (rawHypergraph num_nodes num_hyperedges p rand)))

/-! ## Tree-based generator (`SecondMethod.py`) -/

/-- Neighbors of `u` in the undirected edge list of the sampled tree. -/
def neighbors (edges : List (ℕ × ℕ)) (u : ℕ) : List ℕ :=
  edges.filterMap
    (fun e => if e.1 = u then some e.2 else if e.2 = u then some e.1 else none)

/-- All endpoints occurring in the edge list (bounds the BFS). -/
def edgeNodes (edges : List (ℕ × ℕ)) : Finset ℕ :=
  edges.foldr (fun e s => insert e.1 (insert e.2 s)) ∅

/-- Undirected adjacency in the sampled edge list. -/
def adjE (edges : List (ℕ × ℕ)) (u v : ℕ) : Prop :=
  ∃ e ∈ edges, (e.1 = u ∧ e.2 = v) ∨ (e.1 = v ∧ e.2 = u)

/-- The neighbor loop of the BFS: each unvisited neighbor is marked visited,
gets level `nl`, and is appended to the queue. -/
def bfsPush (nl : ℕ) : List ℕ → List ℕ × Finset ℕ × (ℕ → ℕ) →
    List ℕ × Finset ℕ × (ℕ → ℕ)
  | [], acc => acc
  | v :: vs, (q, vis, lv) =>
    if v ∈ vis then bfsPush nl vs (q, vis, lv)
    else bfsPush nl vs (q ++ [v], insert v vis, fun x => if x = v then nl else lv x)

/-- The BFS while-loop of the source: pop `u`, put it in partition `A` or
`B` by the parity of its level, then push its unvisited neighbors with level
`lv u + 1`.  The level dictionary is modelled as a total function; the
source only ever reads levels of keys it has assigned. -/
def bfsLoop (edges : List (ℕ × ℕ)) (queue : List ℕ) (visited : Finset ℕ)
    (lv : ℕ → ℕ) (A B : Finset ℕ) : Finset ℕ × Finset ℕ :=
  match queue with
  | [] => (A, B)
  | u :: q =>
    if lv u % 2 = 0 then
      bfsLoop edges (bfsPush (lv u + 1) (neighbors edges u) (q, visited, lv)).1
        (bfsPush (lv u + 1) (neighbors edges u) (q, visited, lv)).2.1
        (bfsPush (lv u + 1) (neighbors edges u) (q, visited, lv)).2.2 (insert u A) B
    else
      bfsLoop edges (bfsPush (lv u + 1) (neighbors edges u) (q, visited, lv)).1
        (bfsPush (lv u + 1) (neighbors edges u) (q, visited, lv)).2.1
        (bfsPush (lv u + 1) (neighbors edges u) (q, visited, lv)).2.2 A (insert u B)
termination_by queue.length + ((edgeNodes edges) \ visited).card
decreasing_by
  all_goals {
    have hmem : ∀ (es : List (ℕ × ℕ)), ∀ ee ∈ es,
        ee.1 ∈ edgeNodes es ∧ ee.2 ∈ edgeNodes es := by
      intro es
      induction es with
      | nil =>
        intro ee hee
        simp at hee
      | cons a rest ih =>
        intro ee hee
        rcases List.mem_cons.mp hee with h1 | h1
        · subst h1
          unfold edgeNodes
          simp
        · have hr := ih ee h1
          unfold edgeNodes at hr ⊢
          simp only [List.foldr_cons]
          exact ⟨Finset.mem_insert_of_mem (Finset.mem_insert_of_mem hr.1),
            Finset.mem_insert_of_mem (Finset.mem_insert_of_mem hr.2)⟩
    have hsub : ∀ v ∈ neighbors edges u, v ∈ edgeNodes edges := by
      intro v hv
      unfold neighbors at hv
      rcases List.mem_filterMap.mp hv with ⟨e, he, hve⟩
      split at hve
      · cases hve
        exact (hmem edges e he).2
      · split at hve
        · cases hve
          exact (hmem edges e he).1
        · cases hve
    have key : ∀ (ns : List ℕ) (q0 : List ℕ) (vis0 : Finset ℕ) (lv0 : ℕ → ℕ),
        (∀ v ∈ ns, v ∈ edgeNodes edges) →
        (bfsPush (lv u + 1) ns (q0, vis0, lv0)).1.length +
            ((edgeNodes edges) \ (bfsPush (lv u + 1) ns (q0, vis0, lv0)).2.1).card ≤
          q0.length + ((edgeNodes edges) \ vis0).card := by
      intro ns
      induction ns with
      | nil =>
        intro q0 vis0 lv0 _
        simp [bfsPush]
      | cons v vs ih =>
        intro q0 vis0 lv0 hns
        rw [bfsPush]
        by_cases hv : v ∈ vis0
        · rw [if_pos hv]
          exact ih q0 vis0 lv0 (fun w hw => hns w (List.mem_cons_of_mem v hw))
        · rw [if_neg hv]
          refine le_trans (ih _ _ _ (fun w hw => hns w (List.mem_cons_of_mem v hw))) ?_
          have hvE : v ∈ (edgeNodes edges) \ vis0 :=
            Finset.mem_sdiff.mpr ⟨hns v (List.mem_cons_self v vs), hv⟩
          rw [Finset.sdiff_insert, Finset.card_erase_of_mem hvE]
          have hpos : 0 < ((edgeNodes edges) \ vis0).card := Finset.card_pos.mpr ⟨v, hvE⟩
          simp only [List.length_append, List.length_cons, List.length_nil]
          omega
    have := key (neighbors edges u) q visited lv hsub
    simp only [List.length_cons]
    omega
  }

/-- Root the tree and run the BFS: the root has level `0`, is visited from
the start, and partitions `A` (even levels) and `B` (odd levels) begin
empty.  Returns `(partition_A, partition_B)`. -/
def bfsRun (edges : List (ℕ × ℕ)) (root : ℕ) : Finset ℕ × Finset ℕ :=
  bfsLoop edges [root] {root} (fun _ => 0) ∅ ∅

/-- `sorted(list(partition_B))`. -/
def sortedB (edges : List (ℕ × ℕ)) (root : ℕ) : List ℕ :=
  (bfsRun edges root).2.sort (· ≤ ·)

/-- `vertex_mapping`: the rank of an original `B`-node id among the sorted
`B`-node ids. -/
def vertexMapping (edges : List (ℕ × ℕ)) (root : ℕ) (x : ℕ) : ℕ :=
  (sortedB edges root).indexOf x

/-- `num_vertices = len(vertex_nodes_original) = |B|`. -/
def numVertices (edges : List (ℕ × ℕ)) (root : ℕ) : ℕ :=
  (bfsRun edges root).2.card

/-- The edge loop of Step 3: for each tree edge with one endpoint in `A` and
the other in `B`, add the renamed `B`-endpoint to the `A`-endpoint's
hyperedge vertex set. -/
def initialDict (edges : List (ℕ × ℕ)) (A B : Finset ℕ) (vmap : ℕ → ℕ) :
    ℕ → Finset ℕ :=
  edges.foldl (fun f e =>
    if e.1 ∈ A ∧ e.2 ∈ B then
      fun x => if x = e.1 then insert (vmap e.2) (f x) else f x
    else if e.2 ∈ A ∧ e.1 ∈ B then
      fun x => if x = e.2 then insert (vmap e.1) (f x) else f x
    else f) (fun _ => ∅)

/-- `initial_hyperedges_sets`: the dictionary values in key order; the keys
are inserted in sorted order of the original `A`-node ids. -/
def initialHyperedges (edges : List (ℕ × ℕ)) (root : ℕ) : List (Finset ℕ) :=
  ((bfsRun edges root).1.sort (· ≤ ·)).map
    (initialDict edges (bfsRun edges root).1 (bfsRun edges root).2
      (vertexMapping edges root))

/-- Step 4 for one hyperedge: add each vertex id not already present with
probability `p`; `randi v` is the draw consumed for candidate vertex `v`. -/
def perturbOne (p : ℚ) (randi : ℕ → ℚ) (numV : ℕ) (s : Finset ℕ) : Finset ℕ :=
  s ∪ (Finset.range numV \ s).filter (fun v => randi v < p)

/-- `final_hyperedges_sets`: every initial hyperedge after the Bernoulli
vertex additions.  The source consumes one PRNG stream in loop order; the
embedding indexes the draws by (hyperedge position, candidate vertex id), a
bijective re-indexing of that stream. -/
def finalHyperedgeSets (p : ℚ) (edges : List (ℕ × ℕ)) (root : ℕ)
    (rand : ℕ → ℕ → ℚ) : List (Finset ℕ) :=
  (List.range (initialHyperedges edges root).length).map
    (fun i => perturbOne p (rand i) (numVertices edges root)
      ((initialHyperedges edges root).getD i ∅))

/-- `unique_hyperedges_list`: deduplication by vertex set keeping the first
occurrence's position (Python dict insertion order). -/
def dedupFirst (l : List (Finset ℕ)) : List (Finset ℕ) :=
  l.foldl (fun acc s => if s ∈ acc then acc else acc ++ [s]) []

/-- `proper_subset_indices`: position `k` is marked when some other position
`j` holds a proper superset of position `k`'s set.  (The source skips a `k`
already marked, but a position can only be marked during its own iteration,
so the skip never fires.) -/
def spernerMarks (l : List (Finset ℕ)) : Finset ℕ :=
  (List.range l.length).foldl (fun m k =>
    if k ∈ m then m
    else if (List.range l.length).any (fun j =>
        decide (¬ j = k) && decide (l.getD k ∅ ⊆ l.getD j ∅) &&
          decide (¬ l.getD k ∅ = l.getD j ∅))
      then insert k m else m) ∅

/-- `sperner_filtered_sets`: the unmarked positions, in order. -/
def spernerFilter (l : List (Finset ℕ)) : List (Finset ℕ) :=
  (List.range l.length).filterMap
    (fun k => if k ∈ spernerMarks l then none else some (l.getD k ∅))

/-- The returned set of sorted tuples, after the optional Sperner pass
(`if sperner and len(final_hyperedges_sets) > 1`). -/
def treeResult (p : ℚ) (edges : List (ℕ × ℕ)) (root : ℕ) (rand : ℕ → ℕ → ℚ)
    (sperner : Bool) : Finset (List ℕ) :=
  ((if sperner ∧ 1 < (finalHyperedgeSets p edges root rand).length then
      spernerFilter (dedupFirst (finalHyperedgeSets p edges root rand))
    else finalHyperedgeSets p edges root rand).map
        (fun s => s.sort (· ≤ ·))).toFinset

/-- `generate_random_hypergraph_from_a_tree` from `SecondMethod.py`.  The
sampled tree is given by its edge list and the chosen root; `rand` gives the
`random.random()` draws of Step 4.  For `total_size < 1` the source prints a
warning and returns an empty hypergraph; an out-of-range `p` raises
`ValueError`. -/
def generate_random_hypergraph_from_a_tree (total_size : ℕ) (p : ℚ)
    (edges : List (ℕ × ℕ)) (root : ℕ) (rand : ℕ → ℕ → ℚ) (sperner : Bool) :
    Except String (Finset (List ℕ)) :=
  if total_size < 1 then .ok ∅
  else if ¬ (0 ≤ p ∧ p ≤ 1) then
    .error "Probability p must be between 0.0 and 1.0"
  else .ok (treeResult p edges root rand sperner)

/-! ## The spec's intersection-graph connectivity -/

/-- One step in the spec's intersection graph over a returned set of
hyperedges: two hyperedges are adjacent iff they share at least one vertex. -/
def hgStep (hg : Finset (List ℕ)) (x y : List ℕ) : Prop :=
  x ∈ hg ∧ y ∈ hg ∧ (x.toFinset ∩ y.toFinset).Nonempty

/-- The spec's connectivity property of the intersection graph. -/
def hgConnected (hg : Finset (List ℕ)) : Prop :=
  ∀ a ∈ hg, ∀ b ∈ hg, Relation.ReflTransGen (hgStep hg) a b

end HG

namespace HG

/-! ## Lemmas about the serializer -/

theorem natChars_ne_nil (n : ℕ) : natChars n ≠ [] := by
  rw [natChars]
  split <;> simp

theorem digitChar_toNat {d : ℕ} (h : d < 10) : (digitChar d).toNat = 48 + d := by
  unfold digitChar
  interval_cases d <;> rfl

/-- Every character of `natChars n` is a decimal digit. -/
theorem natChars_digit (n : ℕ) : ∀ c ∈ natChars n, 48 ≤ c.toNat ∧ c.toNat ≤ 57 := by
  induction n using Nat.strong_induction_on with
  | _ n ih =>
    rw [natChars]
    split
    next h =>
      intro c hc
      simp only [List.mem_singleton] at hc
      subst hc
      rw [digitChar_toNat h]
      omega
    next h =>
      intro c hc
      simp only [List.mem_append, List.mem_singleton] at hc
      rcases hc with hc | hc
      · exact ih (n / 10) (Nat.div_lt_self (by omega) (by omega)) c hc
      · subst hc
        rw [digitChar_toNat (Nat.mod_lt _ (by omega))]
        omega

/-- `foldl`-with-accumulator form of the decimal round trip. -/
theorem parseNat_aux (n : ℕ) : ∀ a : ℕ,
    (natChars n).foldl (fun acc c => 10 * acc + (c.toNat - 48)) a =
      a * 10 ^ (natChars n).length + n := by
  induction n using Nat.strong_induction_on with
  | _ n ih =>
    intro a
    rw [natChars]
    split
    next h =>
      simp [digitChar_toNat h]
      omega
    next h =>
      rw [List.foldl_append]
      rw [ih (n / 10) (Nat.div_lt_self (by omega) (by omega)) a]
      have h10 : n % 10 < 10 := Nat.mod_lt _ (by omega)
      simp [digitChar_toNat h10, pow_succ]
      have hdm : 10 * (n / 10) + n % 10 = n := Nat.div_add_mod n 10
      ring_nf
      omega

/-- Parsing inverts Python's decimal printing of a natural number. -/
theorem parseNat_natChars (n : ℕ) : parseNat (natChars n) = n := by
  unfold parseNat
  rw [parseNat_aux n 0]
  simp

/-- Parsing inverts Python's decimal printing of an integer. -/
theorem parseInt_intChars (z : ℤ) : parseInt (intChars z) = z := by
  unfold intChars
  split
  next h =>
    have hstep : parseInt ('-' :: natChars z.natAbs) = -(parseNat (natChars z.natAbs) : ℤ) := by
      unfold parseInt
      simp
    rw [hstep, parseNat_natChars]
    omega
  next h =>
    unfold parseInt
    have hne := natChars_ne_nil z.natAbs
    have hd := natChars_digit z.natAbs
    rcases hh : natChars z.natAbs with _ | ⟨c, cs⟩
    · exact absurd hh hne
    · have hc : 48 ≤ c.toNat ∧ c.toNat ≤ 57 := by
        apply hd
        rw [hh]
        exact List.mem_cons_self c cs
      have hcm : ¬ (c = '-') := by
        intro hceq
        subst hceq
        simp at hc
      simp only [List.head?_cons]
      rw [if_neg (by simpa using hcm)]
      rw [← hh, parseNat_natChars]
      omega

/-- `intChars` never contains a space or a newline. -/
theorem intChars_no_sep (z : ℤ) : ∀ c ∈ intChars z, c ≠ ' ' ∧ c ≠ '\n' := by
  intro c hc
  unfold intChars at hc
  have hdig : (48 ≤ c.toNat ∧ c.toNat ≤ 57) ∨ c = '-' := by
    split at hc
    · rcases List.mem_cons.mp hc with h | h
      · exact Or.inr h
      · exact Or.inl (natChars_digit _ c h)
    · exact Or.inl (natChars_digit _ c hc)
  constructor
  · intro he
    subst he
    rcases hdig with h | h
    · simp at h
    · simp at h
  · intro he
    subst he
    rcases hdig with h | h
    · simp at h
    · simp at h

theorem intChars_ne_nil (z : ℤ) : intChars z ≠ [] := by
  unfold intChars
  split
  · simp
  · exact natChars_ne_nil _

/-- Splitting at a character absent from `t` yields the single part `t`. -/
theorem splitOnChar_not_mem {c : Char} {t : List Char} (h : c ∉ t) :
    splitOnChar c t = [t] := by
  induction t with
  | nil => rfl
  | cons a rest ih =>
    have ha : ¬ (a = c) := fun he => h (he ▸ List.mem_cons_self a rest)
    rw [splitOnChar, if_neg ha, ih (fun hm => h (List.mem_cons_of_mem a hm))]

/-- Splitting a list that starts with a `c`-free part followed by `c`. -/
theorem splitOnChar_append {c : Char} {t rest : List Char} (h : c ∉ t) :
    splitOnChar c (t ++ c :: rest) = t :: splitOnChar c rest := by
  induction t with
  | nil => simp [splitOnChar]
  | cons a tt ih =>
    have ha : ¬ (a = c) := fun he => h (he ▸ List.mem_cons_self a tt)
    have ih2 := ih (fun hm => h (List.mem_cons_of_mem a hm))
    rw [List.cons_append, splitOnChar, if_neg ha, ih2]

/-- Splitting inverts `joinSpace` on a list of nonempty space-free tokens. -/
theorem splitOnChar_joinSpace {ts : List (List Char)} (hne : ts ≠ [])
    (h : ∀ t ∈ ts, ' ' ∉ t) : splitOnChar ' ' (joinSpace ts) = ts := by
  induction ts with
  | nil => exact absurd rfl hne
  | cons t rest ih =>
    rcases rest with _ | ⟨t2, ts2⟩
    · exact splitOnChar_not_mem (h t (List.mem_cons_self _ _))
    · rw [show joinSpace (t :: t2 :: ts2) = t ++ ' ' :: joinSpace (t2 :: ts2) from rfl]
      rw [splitOnChar_append (h t (List.mem_cons_self _ _))]
      rw [ih (by simp) (fun u hu => h u (List.mem_cons_of_mem t hu))]

/-- A serialized line parses back to the original hyperedge. -/
theorem parseLine_line (e : List ℤ) :
    parseLine (joinSpace (e.map intChars)) = e := by
  rcases e with _ | ⟨z, zs⟩
  · rfl
  · unfold parseLine
    rw [splitOnChar_joinSpace (by simp)]
    · rw [List.filter_eq_self.mpr]
      · rw [List.map_map]
        have : parseInt ∘ intChars = id := funext parseInt_intChars
        rw [this, List.map_id]
      · intro t ht
        rcases List.mem_map.mp ht with ⟨w, _, hw⟩
        subst hw
        simpa using intChars_ne_nil w
    · intro t ht
      rcases List.mem_map.mp ht with ⟨w, _, hw⟩
      subst hw
      intro hsp
      exact ((intChars_no_sep w ' ' hsp).1 rfl)

/-- The serialized line of a hyperedge contains no newline character. -/
theorem line_no_newline (e : List ℤ) :
    '\n' ∉ joinSpace (e.map intChars) := by
  induction e with
  | nil => simp [joinSpace]
  | cons z zs ih =>
    rcases zs with _ | ⟨z2, zs2⟩
    · simpa using fun hm => ((intChars_no_sep z '\n' hm).2 rfl)
    · rw [show joinSpace ((z :: z2 :: zs2).map intChars) =
        intChars z ++ ' ' :: joinSpace ((z2 :: zs2).map intChars) from rfl]
      intro hm
      rcases List.mem_append.mp hm with hm | hm
      · exact (intChars_no_sep z '\n' hm).2 rfl
      · rcases List.mem_cons.mp hm with hm | hm
        · simp at hm
        · exact ih hm

/-- Splitting the serialized file at newlines gives the lines plus a final
empty part. -/
theorem splitOnChar_export (hg : List (List ℤ)) :
    splitOnChar '\n' (export_hg_to_dat hg) =
      (hg.map (fun e => joinSpace (e.map intChars))) ++ [[]] := by
  induction hg with
  | nil => rfl
  | cons e rest ih =>
    have : export_hg_to_dat (e :: rest) =
        joinSpace (e.map intChars) ++ '\n' :: export_hg_to_dat rest := by
      unfold export_hg_to_dat
      simp
    rw [this, splitOnChar_append (line_no_newline e), ih]
    rfl

/-- **C8 helper**: full list-level round trip through the serializer. -/
theorem parseFile_export (hg : List (List ℤ)) :
    parseFile (export_hg_to_dat hg) = hg := by
  unfold parseFile fileLines
  rw [splitOnChar_export, List.dropLast_concat, List.map_map]
  have : parseLine ∘ (fun e => joinSpace (e.map intChars)) = id :=
    funext parseLine_line
  rw [this, List.map_id]

end HG

namespace HG

/-! ## Claim C8: serializer round trip -/

/-- **C8**: serializing a finite hypergraph with `export_hg_to_dat` (one
line per hyperedge, ids space-separated, newline-terminated, empty hyperedge
as an empty line) and parsing the file back by splitting each line on
whitespace and mapping the tokens to `int` reproduces the original set of
hyperedges: the parse even reproduces the serialized enumeration exactly, so
the set is recovered no matter in which order the lines were written. -/
theorem claim_C8_roundtrip (hg : List (List ℤ)) :
    parseFile (export_hg_to_dat hg) = hg ∧
      (parseFile (export_hg_to_dat hg)).toFinset = hg.toFinset := by
  refine ⟨parseFile_export hg, ?_⟩
  rw [parseFile_export hg]

/-! ## Claim C1: scratch generator on an empty result (code bug) -/

/-- **C1** (refuting the claim as stated): with `num_nodes = 5`,
`num_hyperedges = 0`, `p = 0.5` and the default flags
`make_simple = make_connected = true`, the scratch generator does not return
the empty set: every candidate list is empty, the component list is empty,
and `max(connected_components, key=len)` raises
`ValueError: max() arg is an empty sequence` — whatever the random draws. -/
theorem claim_C1_max_on_empty (rand : ℕ → ℚ) :
    generate_random_hypergraph_from_scratch 5 0 (1/2) rand true true =
      Except.error "max() arg is an empty sequence" := rfl

/-! ## Claim C2: tree generator input validation (code bug) -/

/-- **C2** (refuting the claim as stated): for `total_size = 0` (and
`p = 0.5`, a valid probability) the tree-based generator does not raise: the
source prints a warning and returns an empty hypergraph, for every sampled
tree, root choice and random draws — contradicting the claim and the
function's own docstring, which promise a `ValueError`. -/
theorem claim_C2_size_zero_returns (edges : List (ℕ × ℕ)) (root : ℕ)
    (rand : ℕ → ℕ → ℚ) (sperner : Bool) :
    generate_random_hypergraph_from_a_tree 0 (1/2) edges root rand sperner =
      Except.ok ∅ := rfl

/-! ## Claim C9: tree generator, total_size = 1 -/

/-- Evaluation helper: the run on the one-node tree (no edges, root `0`). -/
theorem tree_eval_one (rand : ℕ → ℕ → ℚ) (sperner : Bool) :
    generate_random_hypergraph_from_a_tree 1 0 [] 0 rand sperner =
      Except.ok {[]} := by
  have hrun : bfsRun [] 0 = ({0}, ∅) := by
    rw [bfsRun, bfsLoop]
    simp only [neighbors, List.filterMap_nil, bfsPush, Nat.zero_mod, if_pos rfl]
    rw [bfsLoop]
    simp
  have hih : initialHyperedges [] 0 = [∅] := by
    rw [initialHyperedges, hrun]
    simp [initialDict]
  have hfs : finalHyperedgeSets 0 [] 0 rand = [∅] := by
    rw [finalHyperedgeSets, hih]
    simp [perturbOne, numVertices, hrun]
  rw [generate_random_hypergraph_from_a_tree]
  norm_num
  rw [treeResult, hfs]
  simp

/-- **C9**: for `total_size = 1` and `p = 0` (and either value of `sperner`)
the tree-based generator returns exactly `{()}`: the only tree on one node
has no edges and root `0`, the root sits at level 0 so partition `B` is
empty, and the single hyperedge is the empty tuple — a valid output, not an
error. -/
theorem claim_C9_singleton (rand : ℕ → ℕ → ℚ) (sperner : Bool) :
    generate_random_hypergraph_from_a_tree 1 0 [] 0 rand sperner =
      Except.ok {[]} :=
  tree_eval_one rand sperner

end HG

namespace HG

/-! ## Lemmas about the make_simple pass -/

theorem simpleInner_mono (L : List (List ℕ)) (i : ℕ) :
    ∀ (js : List ℕ) (m : Finset ℕ), m ⊆ simpleInner L i js m := by
  intro js
  induction js with
  | nil =>
    intro m
    rw [simpleInner]
  | cons j js ih =>
    intro m
    by_cases h1 : (L.getD i []).toFinset ⊆ (L.getD j []).toFinset
    · rw [simpleInner, if_pos h1]
      exact Finset.subset_insert i m
    · by_cases h2 : (L.getD j []).toFinset ⊆ (L.getD i []).toFinset
      · rw [simpleInner, if_neg h1, if_pos h2]
        exact (Finset.subset_insert j m).trans (ih _)
      · rw [simpleInner, if_neg h1, if_neg h2]
        exact ih m

/-- If some scanned row contains row `i`, the scan at `i` marks `i`. -/
theorem simpleInner_break (L : List (List ℕ)) (i : ℕ) :
    ∀ (js : List ℕ) (m : Finset ℕ),
      (∃ j ∈ js, (L.getD i []).toFinset ⊆ (L.getD j []).toFinset) →
      i ∈ simpleInner L i js m := by
  intro js
  induction js with
  | nil =>
    rintro m ⟨j, hj, _⟩
    simp at hj
  | cons j0 js ih =>
    rintro m ⟨j, hj, hsub⟩
    by_cases h1 : (L.getD i []).toFinset ⊆ (L.getD j0 []).toFinset
    · rw [simpleInner, if_pos h1]
      exact Finset.mem_insert_self i m
    · have hjs : j ∈ js := by
        rcases List.mem_cons.mp hj with h | h
        · subst h
          exact absurd hsub h1
        · exact h
      by_cases h2 : (L.getD j0 []).toFinset ⊆ (L.getD i []).toFinset
      · rw [simpleInner, if_neg h1, if_pos h2]
        exact ih _ ⟨j, hjs, hsub⟩
      · rw [simpleInner, if_neg h1, if_neg h2]
        exact ih _ ⟨j, hjs, hsub⟩

/-- If no scanned row contains row `i` (so the scan never breaks), every
scanned row that is a subset of row `i` gets marked. -/
theorem simpleInner_elif (L : List (List ℕ)) (i : ℕ) :
    ∀ (js : List ℕ) (m : Finset ℕ) (x : ℕ),
      (∀ j ∈ js, ¬ (L.getD i []).toFinset ⊆ (L.getD j []).toFinset) →
      x ∈ js → (L.getD x []).toFinset ⊆ (L.getD i []).toFinset →
      x ∈ simpleInner L i js m := by
  intro js
  induction js with
  | nil =>
    intro m x _ hx _
    simp at hx
  | cons j0 js ih =>
    intro m x hall hx hsub
    have h1 : ¬ (L.getD i []).toFinset ⊆ (L.getD j0 []).toFinset :=
      hall j0 (List.mem_cons_self j0 js)
    by_cases h2 : (L.getD j0 []).toFinset ⊆ (L.getD i []).toFinset
    · rw [simpleInner, if_neg h1, if_pos h2]
      rcases List.mem_cons.mp hx with h | h
      · subst h
        exact simpleInner_mono L i js _ (Finset.mem_insert_self x m)
      · exact ih _ x (fun k hk => hall k (List.mem_cons_of_mem j0 hk)) h hsub
    · rw [simpleInner, if_neg h1, if_neg h2]
      rcases List.mem_cons.mp hx with h | h
      · subst h
        exact absurd hsub h2
      · exact ih m x (fun k hk => hall k (List.mem_cons_of_mem j0 hk)) h hsub

/-- Everything the scan at `i` marks beyond `m` is either `i` itself broken
out by a later superset, or a scanned row properly contained in row `i`. -/
theorem simpleInner_sound (L : List (List ℕ)) (i : ℕ) :
    ∀ (js : List ℕ) (m : Finset ℕ) (x : ℕ), x ∈ simpleInner L i js m →
      x ∈ m ∨
      (x = i ∧ ∃ j ∈ js, (L.getD i []).toFinset ⊆ (L.getD j []).toFinset) ∨
      (x ∈ js ∧ (L.getD x []).toFinset ⊆ (L.getD i []).toFinset ∧
        ¬ (L.getD i []).toFinset ⊆ (L.getD x []).toFinset) := by
  intro js
  induction js with
  | nil =>
    intro m x hx
    rw [simpleInner] at hx
    exact Or.inl hx
  | cons j0 js ih =>
    intro m x hx
    by_cases h1 : (L.getD i []).toFinset ⊆ (L.getD j0 []).toFinset
    · rw [simpleInner, if_pos h1] at hx
      rcases Finset.mem_insert.mp hx with h | h
      · exact Or.inr (Or.inl ⟨h, j0, List.mem_cons_self j0 js, h1⟩)
      · exact Or.inl h
    · by_cases h2 : (L.getD j0 []).toFinset ⊆ (L.getD i []).toFinset
      · rw [simpleInner, if_neg h1, if_pos h2] at hx
        rcases ih _ x hx with h | h | h
        · rcases Finset.mem_insert.mp h with h3 | h3
          · subst h3
            exact Or.inr (Or.inr ⟨List.mem_cons_self x js, h2, h1⟩)
          · exact Or.inl h3
        · exact Or.inr (Or.inl ⟨h.1, by
            rcases h.2 with ⟨j, hj, hjs⟩
            exact ⟨j, List.mem_cons_of_mem j0 hj, hjs⟩⟩)
        · exact Or.inr (Or.inr ⟨List.mem_cons_of_mem j0 h.1, h.2⟩)
      · rw [simpleInner, if_neg h1, if_neg h2] at hx
        rcases ih _ x hx with h | h | h
        · exact Or.inl h
        · exact Or.inr (Or.inl ⟨h.1, by
            rcases h.2 with ⟨j, hj, hjs⟩
            exact ⟨j, List.mem_cons_of_mem j0 hj, hjs⟩⟩)
        · exact Or.inr (Or.inr ⟨List.mem_cons_of_mem j0 h.1, h.2⟩)

theorem simpleFold_mono (L : List (List ℕ)) :
    ∀ (l : List ℕ) (m : Finset ℕ),
      m ⊆ l.foldl
        (fun m i => simpleInner L i (List.range' (i + 1) (L.length - (i + 1))) m) m := by
  intro l
  induction l with
  | nil =>
    intro m
    simp
  | cons a l ih =>
    intro m
    simp only [List.foldl_cons]
    exact (simpleInner_mono L a _ m).trans (ih _)

theorem simpleFold_break (L : List (List ℕ)) :
    ∀ (l : List ℕ) (m : Finset ℕ) (i : ℕ), i ∈ l →
      (∃ k, i < k ∧ k < L.length ∧
        (L.getD i []).toFinset ⊆ (L.getD k []).toFinset) →
      i ∈ l.foldl
        (fun m i => simpleInner L i (List.range' (i + 1) (L.length - (i + 1))) m) m := by
  intro l
  induction l with
  | nil =>
    intro m i hi _
    simp at hi
  | cons a l ih =>
    intro m i hi hex
    simp only [List.foldl_cons]
    rcases List.mem_cons.mp hi with h | h
    · subst h
      apply simpleFold_mono L l
      rcases hex with ⟨k, hik, hk, hsub⟩
      apply simpleInner_break
      refine ⟨k, ?_, hsub⟩
      rw [List.mem_range'_1]
      omega
    · exact ih _ i h hex

theorem simpleFold_elif (L : List (List ℕ)) :
    ∀ (l : List ℕ) (m : Finset ℕ) (i x : ℕ), i ∈ l →
      (∀ k, i < k → k < L.length →
        ¬ (L.getD i []).toFinset ⊆ (L.getD k []).toFinset) →
      i < x → x < L.length →
      (L.getD x []).toFinset ⊆ (L.getD i []).toFinset →
      x ∈ l.foldl
        (fun m i => simpleInner L i (List.range' (i + 1) (L.length - (i + 1))) m) m := by
  intro l
  induction l with
  | nil =>
    intro m i x hi _ _ _ _
    simp at hi
  | cons a l ih =>
    intro m i x hi hall hix hx hsub
    simp only [List.foldl_cons]
    rcases List.mem_cons.mp hi with h | h
    · subst h
      apply simpleFold_mono L l
      apply simpleInner_elif
      · intro k hk
        rw [List.mem_range'_1] at hk
        exact hall k (by omega) (by omega)
      · rw [List.mem_range'_1]
        omega
      · exact hsub
    · exact ih _ i x h hall hix hx hsub

theorem simpleFold_sound (L : List (List ℕ)) :
    ∀ (l : List ℕ) (m : Finset ℕ),
      (∀ x ∈ m,
        (∃ k, x < k ∧ k < L.length ∧
          (L.getD x []).toFinset ⊆ (L.getD k []).toFinset) ∨
        (∃ k, k < x ∧ x < L.length ∧
          (L.getD x []).toFinset ⊆ (L.getD k []).toFinset ∧
          ¬ (L.getD k []).toFinset ⊆ (L.getD x []).toFinset)) →
      ∀ x ∈ l.foldl
        (fun m i => simpleInner L i (List.range' (i + 1) (L.length - (i + 1))) m) m,
        (∃ k, x < k ∧ k < L.length ∧
          (L.getD x []).toFinset ⊆ (L.getD k []).toFinset) ∨
        (∃ k, k < x ∧ x < L.length ∧
          (L.getD x []).toFinset ⊆ (L.getD k []).toFinset ∧
          ¬ (L.getD k []).toFinset ⊆ (L.getD x []).toFinset) := by
  intro l
  induction l with
  | nil =>
    intro m hm x hx
    simp only [List.foldl_nil] at hx
    exact hm x hx
  | cons a l ih =>
    intro m hm x hx
    simp only [List.foldl_cons] at hx
    refine ih _ ?_ x hx
    intro z hz
    rcases simpleInner_sound L a _ _ z hz with h | h | h
    · exact hm z h
    · rcases h with ⟨rfl, j, hj, hsub⟩
      rw [List.mem_range'_1] at hj
      exact Or.inl ⟨j, by omega, by omega, hsub⟩
    · rcases h with ⟨hz2, hsub, hnsub⟩
      rw [List.mem_range'_1] at hz2
      exact Or.inr ⟨a, by omega, by omega, hsub, hnsub⟩

/-- Marked rows: a row with a later superset is broken out. -/
theorem simpleMarks_break (L : List (List ℕ)) {i k : ℕ} (hik : i < k)
    (hk : k < L.length)
    (hsub : (L.getD i []).toFinset ⊆ (L.getD k []).toFinset) :
    i ∈ simpleMarks L := by
  unfold simpleMarks
  apply simpleFold_break
  · rw [List.mem_range]
    omega
  · exact ⟨k, hik, hk, hsub⟩

/-- Marked rows: if row `i`'s scan never breaks, a later proper subset of
row `i` gets marked. -/
theorem simpleMarks_elif (L : List (List ℕ)) {i x : ℕ} (hi : i < L.length)
    (hall : ∀ k, i < k → k < L.length →
      ¬ (L.getD i []).toFinset ⊆ (L.getD k []).toFinset)
    (hix : i < x) (hx : x < L.length)
    (hsub : (L.getD x []).toFinset ⊆ (L.getD i []).toFinset) :
    x ∈ simpleMarks L := by
  unfold simpleMarks
  apply simpleFold_elif
  · rw [List.mem_range]
    exact hi
  · exact hall
  · exact hix
  · exact hx
  · exact hsub

/-- Every marked row has a reason: a later superset (break) or an earlier
row properly containing it (elif). -/
theorem simpleMarks_sound (L : List (List ℕ)) {x : ℕ} (hx : x ∈ simpleMarks L) :
    (∃ k, x < k ∧ k < L.length ∧
      (L.getD x []).toFinset ⊆ (L.getD k []).toFinset) ∨
    (∃ k, k < x ∧ x < L.length ∧
      (L.getD x []).toFinset ⊆ (L.getD k []).toFinset ∧
      ¬ (L.getD k []).toFinset ⊆ (L.getD x []).toFinset) := by
  unfold simpleMarks at hx
  refine simpleFold_sound L _ _ ?_ x hx
  intro z hz
  simp at hz

/-- Two surviving rows are never subsets of one another. -/
theorem simpleMarks_no_subset (L : List (List ℕ)) {i j : ℕ} (hi : i < L.length)
    (hj : j < L.length) (hij : i ≠ j) (hiM : i ∉ simpleMarks L)
    (hjM : j ∉ simpleMarks L) :
    ¬ (L.getD i []).toFinset ⊆ (L.getD j []).toFinset := by
  intro hsub
  rcases Nat.lt_or_ge i j with h | h
  · exact hiM (simpleMarks_break L h hj hsub)
  · have hji : j < i := by omega
    have hall : ∀ k, j < k → k < L.length →
        ¬ (L.getD j []).toFinset ⊆ (L.getD k []).toFinset := by
      intro k h1 h2 h3
      exact hjM (simpleMarks_break L h1 h2 h3)
    exact hiM (simpleMarks_elif L hj hall hji hi hsub)

/-- Every row (marked or not) has a surviving superset row. -/
theorem simpleMarks_superset (L : List (List ℕ)) {x : ℕ} (hx : x < L.length) :
    ∃ y, y < L.length ∧ y ∉ simpleMarks L ∧
      (L.getD x []).toFinset ⊆ (L.getD y []).toFinset := by
  have hSne : ((Finset.range L.length).filter
      (fun k => (L.getD x []).toFinset ⊆ (L.getD k []).toFinset)).Nonempty := by
    refine ⟨x, ?_⟩
    simp [hx]
  obtain ⟨y, hyS, hymax⟩ := Finset.exists_max_image _
    (fun k => (L.getD k []).toFinset.card * L.length + k) hSne
  simp only [Finset.mem_filter, Finset.mem_range] at hyS
  refine ⟨y, hyS.1, ?_, hyS.2⟩
  intro hyM
  rcases simpleMarks_sound L hyM with ⟨k, hyk, hk, hsubk⟩ | ⟨k, hky, hy, hsubk, hnsubk⟩
  · have hkS := hymax k (by
      simp only [Finset.mem_filter, Finset.mem_range]
      exact ⟨hk, hyS.2.trans hsubk⟩)
    have hcard : (L.getD y []).toFinset.card ≤ (L.getD k []).toFinset.card :=
      Finset.card_le_card hsubk
    rcases Nat.eq_or_lt_of_le hcard with heq | hlt
    · have hsets : (L.getD y []).toFinset = (L.getD k []).toFinset :=
        Finset.eq_of_subset_of_card_le hsubk (le_of_eq heq.symm)
      rw [hsets] at hkS
      omega
    · have hylen : y < L.length := hyS.1
      nlinarith [hkS, hlt, hylen]
  · have hkS := hymax k (by
      simp only [Finset.mem_filter, Finset.mem_range]
      exact ⟨by omega, hyS.2.trans hsubk⟩)
    have hlt : (L.getD y []).toFinset.card < (L.getD k []).toFinset.card :=
      Finset.card_lt_card (Finset.ssubset_def.mpr ⟨hsubk, hnsubk⟩)
    have hylen : y < L.length := hyS.1
    nlinarith [hkS, hlt, hylen]

theorem mem_makeSimple (L : List (List ℕ)) (a : List ℕ) :
    a ∈ makeSimple L ↔
      ∃ i, i < L.length ∧ i ∉ simpleMarks L ∧ L.getD i [] = a := by
  unfold makeSimple
  rw [List.mem_filterMap]
  constructor
  · rintro ⟨i, hi, hif⟩
    rw [List.mem_range] at hi
    by_cases hm : i ∈ simpleMarks L
    · rw [if_pos hm] at hif
      cases hif
    · rw [if_neg hm] at hif
      exact ⟨i, hi, hm, Option.some.inj hif⟩
  · rintro ⟨i, hi, hm, ha⟩
    refine ⟨i, ?_, ?_⟩
    · rw [List.mem_range]
      exact hi
    · rw [if_neg hm, ha]

/-- Pairwise non-containment of the make_simple survivors. -/
theorem makeSimple_pairwise (L : List (List ℕ)) {x y : List ℕ}
    (hx : x ∈ makeSimple L) (hy : y ∈ makeSimple L) (hne : x ≠ y) :
    ¬ x.toFinset ⊆ y.toFinset := by
  rcases (mem_makeSimple L x).mp hx with ⟨i, hi, hiM, hxe⟩
  rcases (mem_makeSimple L y).mp hy with ⟨j, hj, hjM, hye⟩
  have hij : i ≠ j := by
    rintro rfl
    exact hne (hxe ▸ hye ▸ rfl)
  subst hxe
  subst hye
  exact simpleMarks_no_subset L hi hj hij hiM hjM

end HG

namespace HG

/-! ## Destructuring the scratch generator's result -/

theorem simpleStep_true (L : List (List ℕ)) :
    simpleStep true L = (makeSimple L).toFinset := rfl

theorem simpleStep_false (L : List (List ℕ)) :
    simpleStep false L = L.toFinset := rfl

/-- A returned `ok` value of the scratch generator comes from the final
`set(map(tuple, ...))` of either the connected branch (largest component
selected) or the unconnected branch. -/
theorem scratch_ok_elim {num_nodes num_hyperedges : ℕ} {p : ℚ} {rand : ℕ → ℚ}
    {ms mc : Bool} {hg : Finset (List ℕ)}
    (hok : generate_random_hypergraph_from_scratch num_nodes num_hyperedges p
      rand ms mc = Except.ok hg) :
    (∃ comp, largestComponent (connectedComponents
        (dropEmpty (rawHypergraph num_nodes num_hyperedges p rand))) = some comp ∧
      mc = true ∧
      hg = simpleStep ms ((comp.sort (· ≤ ·)).map
        (fun i => (dropEmpty (rawHypergraph num_nodes num_hyperedges p rand)).get i))) ∨
    (mc = false ∧
      hg = simpleStep ms (dropEmpty (rawHypergraph num_nodes num_hyperedges p rand))) := by
  cases mc with
  | false =>
    right
    refine ⟨rfl, ?_⟩
    unfold generate_random_hypergraph_from_scratch at hok
    rw [if_neg (by simp)] at hok
    exact (Except.ok.inj hok).symm
  | true =>
    left
    unfold generate_random_hypergraph_from_scratch at hok
    rw [if_pos rfl] at hok
    rcases hL : largestComponent (connectedComponents
        (dropEmpty (rawHypergraph num_nodes num_hyperedges p rand))) with _ | comp
    · rw [hL] at hok
      cases hok
    · rw [hL] at hok
      exact ⟨comp, rfl, rfl, (Except.ok.inj hok).symm⟩

/-- Elements of `simpleStep` are rows of its input list. -/
theorem simpleStep_mem {ms : Bool} {L : List (List ℕ)} {a : List ℕ}
    (ha : a ∈ simpleStep ms L) : a ∈ L := by
  cases ms with
  | false =>
    rw [simpleStep_false, List.mem_toFinset] at ha
    exact ha
  | true =>
    rw [simpleStep_true, List.mem_toFinset] at ha
    rcases (mem_makeSimple L a).mp ha with ⟨i, hi, _, hae⟩
    subst hae
    have := List.get_mem L i hi
    simpa [List.getD_eq_getElem?_getD, List.getElem?_eq_getElem hi] using this

/-! ## Claim C5: make_simple output has no subset pairs -/

/-- **C5**: for all parameters, flags and random draws, when the scratch
generator is called with `make_simple = true` and returns a set of
hyperedges, neither of two distinct returned hyperedges is a (non-strict)
subset of the other. -/
theorem claim_C5_make_simple {num_nodes num_hyperedges : ℕ} {p : ℚ}
    {rand : ℕ → ℚ} {mc : Bool} {hg : Finset (List ℕ)}
    (hok : generate_random_hypergraph_from_scratch num_nodes num_hyperedges p
      rand true mc = Except.ok hg)
    {x y : List ℕ} (hx : x ∈ hg) (hy : y ∈ hg) (hne : x ≠ y) :
    ¬ x.toFinset ⊆ y.toFinset := by
  rcases scratch_ok_elim hok with ⟨comp, _, _, hhg⟩ | ⟨_, hhg⟩
  · subst hhg
    rw [simpleStep_true, List.mem_toFinset] at hx hy
    exact makeSimple_pairwise _ hx hy hne
  · subst hhg
    rw [simpleStep_true, List.mem_toFinset] at hx hy
    exact makeSimple_pairwise _ hx hy hne

/-- Witness for C5: a concrete run returning `{(0,1), (1,2)}`, where indeed
`(0,1) ⊄ (1,2)`. -/
theorem claim_C5_make_simple_witness :
    ¬ ([0, 1] : List ℕ).toFinset ⊆ ([1, 2] : List ℕ).toFinset :=
  @claim_C5_make_simple 3 2 1 (fun k => if k = 2 ∨ k = 3 then 1 else 0) false
    {[0, 1], [1, 2]} rfl [0, 1] [1, 2] (by decide) (by decide) (by decide)

end HG

namespace HG

/-! ## Lemmas about the Sperner pass of the tree-based generator -/

theorem dedupFirst_aux_mem :
    ∀ (l acc : List (Finset ℕ)) (x : Finset ℕ),
      (x ∈ l.foldl (fun acc s => if s ∈ acc then acc else acc ++ [s]) acc ↔
        (x ∈ acc ∨ x ∈ l)) := by
  intro l
  induction l with
  | nil =>
    intro acc x
    simp
  | cons s l ih =>
    intro acc x
    simp only [List.foldl_cons]
    by_cases hs : s ∈ acc
    · rw [if_pos hs, ih]
      constructor
      · rintro (h | h)
        · exact Or.inl h
        · exact Or.inr (List.mem_cons_of_mem s h)
      · rintro (h | h)
        · exact Or.inl h
        · rcases List.mem_cons.mp h with h2 | h2
          · subst h2
            exact Or.inl hs
          · exact Or.inr h2
    · rw [if_neg hs, ih]
      simp only [List.mem_append, List.mem_singleton, List.mem_cons]
      tauto

theorem mem_dedupFirst (l : List (Finset ℕ)) (x : Finset ℕ) :
    x ∈ dedupFirst l ↔ x ∈ l := by
  unfold dedupFirst
  rw [dedupFirst_aux_mem]
  simp

theorem dedupFirst_aux_nodup :
    ∀ (l acc : List (Finset ℕ)), acc.Nodup →
      (l.foldl (fun acc s => if s ∈ acc then acc else acc ++ [s]) acc).Nodup := by
  intro l
  induction l with
  | nil =>
    intro acc h
    simpa using h
  | cons s l ih =>
    intro acc h
    simp only [List.foldl_cons]
    by_cases hs : s ∈ acc
    · rw [if_pos hs]
      exact ih acc h
    · rw [if_neg hs]
      refine ih _ ?_
      rw [List.nodup_append]
      exact ⟨h, List.nodup_singleton s, by simpa using hs⟩

theorem dedupFirst_nodup (l : List (Finset ℕ)) : (dedupFirst l).Nodup :=
  dedupFirst_aux_nodup l [] List.nodup_nil

theorem spernerFold_mono (l : List (Finset ℕ)) :
    ∀ (is : List ℕ) (m : Finset ℕ),
      m ⊆ is.foldl (fun m k =>
        if k ∈ m then m
        else if (List.range l.length).any (fun j =>
            decide (¬ j = k) && decide (l.getD k ∅ ⊆ l.getD j ∅) &&
              decide (¬ l.getD k ∅ = l.getD j ∅))
          then insert k m else m) m := by
  intro is
  induction is with
  | nil =>
    intro m
    simp
  | cons a is ih =>
    intro m
    simp only [List.foldl_cons]
    refine subset_trans ?_ (ih _)
    by_cases ha : a ∈ m
    · rw [if_pos ha]
    · rw [if_neg ha]
      split
      · exact Finset.subset_insert a m
      · exact subset_refl m

theorem spernerFold_mem (l : List (Finset ℕ)) :
    ∀ (is : List ℕ) (m : Finset ℕ) (x : ℕ),
      (x ∈ is.foldl (fun m k =>
        if k ∈ m then m
        else if (List.range l.length).any (fun j =>
            decide (¬ j = k) && decide (l.getD k ∅ ⊆ l.getD j ∅) &&
              decide (¬ l.getD k ∅ = l.getD j ∅))
          then insert k m else m) m) ↔
      (x ∈ m ∨ (x ∈ is ∧ ∃ j, j < l.length ∧ j ≠ x ∧
        l.getD x ∅ ⊆ l.getD j ∅ ∧ l.getD x ∅ ≠ l.getD j ∅)) := by
  intro is
  induction is with
  | nil =>
    intro m x
    simp
  | cons a is ih =>
    intro m x
    simp only [List.foldl_cons]
    rw [ih]
    have hcond : ((List.range l.length).any (fun j =>
        decide (¬ j = a) && decide (l.getD a ∅ ⊆ l.getD j ∅) &&
          decide (¬ l.getD a ∅ = l.getD j ∅)) = true) ↔
        (∃ j, j < l.length ∧ j ≠ a ∧ l.getD a ∅ ⊆ l.getD j ∅ ∧
          l.getD a ∅ ≠ l.getD j ∅) := by
      rw [List.any_eq_true]
      constructor
      · rintro ⟨j, hj, hcj⟩
        rw [List.mem_range] at hj
        simp only [Bool.and_eq_true, decide_eq_true_eq] at hcj
        exact ⟨j, hj, hcj.1.1, hcj.1.2, hcj.2⟩
      · rintro ⟨j, hj, hne, hsub, hneq⟩
        refine ⟨j, ?_, ?_⟩
        · rw [List.mem_range]
          exact hj
        · simp only [Bool.and_eq_true, decide_eq_true_eq]
          exact ⟨⟨hne, hsub⟩, hneq⟩
    by_cases ha : a ∈ m
    · rw [if_pos ha]
      constructor
      · rintro (h | h)
        · exact Or.inl h
        · exact Or.inr ⟨List.mem_cons_of_mem a h.1, h.2⟩
      · rintro (h | ⟨hx, hj⟩)
        · exact Or.inl h
        · rcases List.mem_cons.mp hx with h2 | h2
          · subst h2
            exact Or.inl ha
          · exact Or.inr ⟨h2, hj⟩
    · rw [if_neg ha]
      by_cases hc : (List.range l.length).any (fun j =>
          decide (¬ j = a) && decide (l.getD a ∅ ⊆ l.getD j ∅) &&
            decide (¬ l.getD a ∅ = l.getD j ∅)) = true
      · rw [if_pos hc]
        rw [hcond] at hc
        constructor
        · rintro (h | h)
          · rcases Finset.mem_insert.mp h with h2 | h2
            · subst h2
              exact Or.inr ⟨List.mem_cons_self x is, hc⟩
            · exact Or.inl h2
          · exact Or.inr ⟨List.mem_cons_of_mem a h.1, h.2⟩
        · rintro (h | ⟨hx, hj⟩)
          · exact Or.inl (Finset.mem_insert_of_mem h)
          · rcases List.mem_cons.mp hx with h2 | h2
            · subst h2
              exact Or.inl (Finset.mem_insert_self x m)
            · exact Or.inr ⟨h2, hj⟩
      · rw [if_neg hc]
        rw [hcond] at hc
        constructor
        · rintro (h | h)
          · exact Or.inl h
          · exact Or.inr ⟨List.mem_cons_of_mem a h.1, h.2⟩
        · rintro (h | ⟨hx, hj⟩)
          · exact Or.inl h
          · rcases List.mem_cons.mp hx with h2 | h2
            · subst h2
              exact absurd hj hc
            · exact Or.inr ⟨h2, hj⟩

/-- Characterization of the marked positions of the Sperner pass: position
`x` is marked iff some other position holds a proper superset. -/
theorem mem_spernerMarks (l : List (Finset ℕ)) (x : ℕ) :
    x ∈ spernerMarks l ↔
      (x < l.length ∧ ∃ j, j < l.length ∧ j ≠ x ∧
        l.getD x ∅ ⊆ l.getD j ∅ ∧ l.getD x ∅ ≠ l.getD j ∅) := by
  unfold spernerMarks
  rw [spernerFold_mem]
  simp [List.mem_range]

theorem mem_spernerFilter (l : List (Finset ℕ)) (s : Finset ℕ) :
    s ∈ spernerFilter l ↔
      ∃ k, k < l.length ∧ k ∉ spernerMarks l ∧ l.getD k ∅ = s := by
  unfold spernerFilter
  rw [List.mem_filterMap]
  constructor
  · rintro ⟨k, hk, hif⟩
    rw [List.mem_range] at hk
    by_cases hm : k ∈ spernerMarks l
    · rw [if_pos hm] at hif
      cases hif
    · rw [if_neg hm] at hif
      exact ⟨k, hk, hm, Option.some.inj hif⟩
  · rintro ⟨k, hk, hm, hs⟩
    refine ⟨k, ?_, ?_⟩
    · rw [List.mem_range]
      exact hk
    · rw [if_neg hm, hs]

theorem getD_mem {α : Type} (l : List α) (d : α) {i : ℕ} (h : i < l.length) :
    l.getD i d ∈ l := by
  rw [List.getD_eq_getElem l d h]
  exact List.getElem_mem h

/-- A Sperner survivor is an element of the list with no proper superset in
the list. -/
theorem spernerFilter_maximal {l : List (Finset ℕ)} {s : Finset ℕ}
    (hs : s ∈ spernerFilter l) : s ∈ l ∧ ∀ t ∈ l, ¬ s ⊂ t := by
  rcases (mem_spernerFilter l s).mp hs with ⟨k, hk, hm, hks⟩
  have hmem : s ∈ l := by
    rw [← hks]
    exact getD_mem l ∅ hk
  refine ⟨hmem, ?_⟩
  intro t ht hst
  rcases List.mem_iff_getElem.mp ht with ⟨i, hi, hit⟩
  apply hm
  rw [mem_spernerMarks]
  have hgi : l.getD i ∅ = t := by
    rw [List.getD_eq_getElem l ∅ hi, hit]
  refine ⟨hk, i, hi, ?_, ?_, ?_⟩
  · intro hik
    subst hik
    exact (ne_of_ssubset hst) (hgi ▸ hks).symm
  · rw [hks, hgi]
    exact subset_of_ssubset hst
  · rw [hks, hgi]
    exact ne_of_ssubset hst

/-- Every element of the list is contained in some Sperner survivor. -/
theorem spernerFilter_cover {l : List (Finset ℕ)} {s : Finset ℕ} (hs : s ∈ l) :
    ∃ t ∈ spernerFilter l, s ⊆ t := by
  have hSne : (l.toFinset.filter (fun t => s ⊆ t)).Nonempty := by
    refine ⟨s, ?_⟩
    simp [hs]
  obtain ⟨t, htS, htmax⟩ := Finset.exists_max_image _ (fun t => t.card) hSne
  simp only [Finset.mem_filter, List.mem_toFinset] at htS
  refine ⟨t, ?_, htS.2⟩
  rcases List.mem_iff_getElem.mp htS.1 with ⟨k, hk, hkt⟩
  rw [mem_spernerFilter]
  refine ⟨k, hk, ?_, by rw [List.getD_eq_getElem l ∅ hk, hkt]⟩
  intro hm
  rw [mem_spernerMarks] at hm
  rcases hm with ⟨_, j, hj, hjk, hsub, hneq⟩
  rw [List.getD_eq_getElem l ∅ hk, hkt] at hsub hneq
  have hjS : l.getD j ∅ ∈ l.toFinset.filter (fun t => s ⊆ t) := by
    simp only [Finset.mem_filter, List.mem_toFinset]
    exact ⟨getD_mem l ∅ hj, htS.2.trans hsub⟩
  have hcard := htmax _ hjS
  have hlt : t.card < (l.getD j ∅).card :=
    Finset.card_lt_card (Finset.ssubset_def.mpr ⟨hsub, fun hback =>
      hneq (Finset.Subset.antisymm hsub hback)⟩)
  omega

/-- Two distinct Sperner survivors are incomparable. -/
theorem spernerFilter_antichain {l : List (Finset ℕ)} {s t : Finset ℕ}
    (hs : s ∈ spernerFilter l) (ht : t ∈ spernerFilter l) : ¬ s ⊂ t := by
  intro hst
  exact (spernerFilter_maximal hs).2 t (spernerFilter_maximal ht).1 hst

theorem spernerFilter_ne_nil {l : List (Finset ℕ)} (hne : l ≠ []) :
    spernerFilter l ≠ [] := by
  rcases l with _ | ⟨s, l⟩
  · exact absurd rfl hne
  · rcases spernerFilter_cover (List.mem_cons_self s l) with ⟨t, ht, _⟩
    intro hnil
    rw [hnil] at ht
    simp at ht

end HG

namespace HG

/-! ## Destructuring the tree-based generator's result -/

/-- With valid inputs, the tree-based generator returns `treeResult`. -/
theorem tree_ok_result {total_size : ℕ} {p : ℚ} (edges : List (ℕ × ℕ))
    (root : ℕ) (rand : ℕ → ℕ → ℚ) (sperner : Bool)
    (h1 : 1 ≤ total_size) (hp : 0 ≤ p ∧ p ≤ 1) :
    generate_random_hypergraph_from_a_tree total_size p edges root rand sperner =
      Except.ok (treeResult p edges root rand sperner) := by
  unfold generate_random_hypergraph_from_a_tree
  rw [if_neg (by omega), if_neg (not_not_intro hp)]

/-- Any `ok` value is either the degenerate empty result (`total_size < 1`)
or `treeResult`. -/
theorem tree_ok_elim {total_size : ℕ} {p : ℚ} {edges : List (ℕ × ℕ)}
    {root : ℕ} {rand : ℕ → ℕ → ℚ} {sperner : Bool} {hg : Finset (List ℕ)}
    (hok : generate_random_hypergraph_from_a_tree total_size p edges root rand
      sperner = Except.ok hg) :
    hg = ∅ ∨ hg = treeResult p edges root rand sperner := by
  unfold generate_random_hypergraph_from_a_tree at hok
  split at hok
  · exact Or.inl (Except.ok.inj hok).symm
  · split at hok
    · cases hok
    · exact Or.inr (Except.ok.inj hok).symm

/-- Members of `treeResult` are sorted enumerations of hyperedge sets that
are either Sperner survivors or the final perturbed sets. -/
theorem treeResult_mem {p : ℚ} {edges : List (ℕ × ℕ)} {root : ℕ}
    {rand : ℕ → ℕ → ℚ} {sperner : Bool} {x : List ℕ}
    (hx : x ∈ treeResult p edges root rand sperner) :
    ∃ s : Finset ℕ,
      (s ∈ spernerFilter (dedupFirst (finalHyperedgeSets p edges root rand)) ∨
        s ∈ finalHyperedgeSets p edges root rand) ∧ x = s.sort (· ≤ ·) := by
  unfold treeResult at hx
  rw [List.mem_toFinset] at hx
  split at hx
  · rcases List.mem_map.mp hx with ⟨s, hsm, hxs⟩
    exact ⟨s, Or.inl hsm, hxs.symm⟩
  · rcases List.mem_map.mp hx with ⟨s, hsm, hxs⟩
    exact ⟨s, Or.inr hsm, hxs.symm⟩

/-! ## Claim C4: the Sperner output is an antichain -/

/-- **C4**: whenever the tree-based generator is called with `sperner = true`
and returns a set of hyperedges, that set is an antichain under inclusion:
no returned hyperedge is a strict subset of another returned hyperedge
(stated for all pairs; for distinct pairs this is the claim, and for a
hyperedge against itself strictness is impossible anyway). -/
theorem claim_C4_sperner_antichain {total_size : ℕ} {p : ℚ}
    {edges : List (ℕ × ℕ)} {root : ℕ} {rand : ℕ → ℕ → ℚ}
    {hg : Finset (List ℕ)}
    (hok : generate_random_hypergraph_from_a_tree total_size p edges root rand
      true = Except.ok hg)
    {x y : List ℕ} (hx : x ∈ hg) (hy : y ∈ hg) :
    ¬ x.toFinset ⊂ y.toFinset := by
  rcases tree_ok_elim hok with rfl | rfl
  · simp at hx
  · unfold treeResult at hx hy
    rw [List.mem_toFinset] at hx hy
    by_cases hlen : 1 < (finalHyperedgeSets p edges root rand).length
    · rw [if_pos ⟨rfl, hlen⟩] at hx hy
      rcases List.mem_map.mp hx with ⟨s, hsm, hxs⟩
      rcases List.mem_map.mp hy with ⟨t, htm, hyt⟩
      subst hxs
      subst hyt
      rw [Finset.sort_toFinset, Finset.sort_toFinset]
      exact spernerFilter_antichain hsm htm
    · rw [if_neg (fun hc => hlen hc.2)] at hx hy
      rcases List.mem_map.mp hx with ⟨s, hsm, hxs⟩
      rcases List.mem_map.mp hy with ⟨t, htm, hyt⟩
      have hst : s = t := by
        rcases hfs : finalHyperedgeSets p edges root rand with _ | ⟨a, rest⟩
        · rw [hfs] at hsm
          simp at hsm
        · rcases rest with _ | ⟨b, r2⟩
          · rw [hfs] at hsm htm
            simp at hsm htm
            rw [hsm, htm]
          · rw [hfs] at hlen
            simp at hlen
      subst hst
      rw [← hxs, ← hyt, Finset.sort_toFinset]
      exact fun hss => (ne_of_ssubset hss) rfl

end HG

namespace HG

/-! ## Claim C7: hyperedges are strictly ascending tuples -/

/-- Every sampled candidate row is strictly ascending: it is a filter of
`range num_nodes`. -/
theorem rawHypergraph_sorted {num_nodes num_hyperedges : ℕ} {p : ℚ}
    {rand : ℕ → ℚ} {h : List ℕ}
    (hh : h ∈ rawHypergraph num_nodes num_hyperedges p rand) :
    List.Sorted (· < ·) h := by
  rcases List.mem_map.mp hh with ⟨i, _, hrow⟩
  subst hrow
  exact (List.pairwise_lt_range num_nodes).filter _

/-- Every hyperedge an `ok` result of the scratch generator contains is one
of the nonempty sampled rows. -/
theorem scratch_mem_raw {num_nodes num_hyperedges : ℕ} {p : ℚ} {rand : ℕ → ℚ}
    {ms mc : Bool} {hg : Finset (List ℕ)}
    (hok : generate_random_hypergraph_from_scratch num_nodes num_hyperedges p
      rand ms mc = Except.ok hg)
    {x : List ℕ} (hx : x ∈ hg) :
    x ∈ dropEmpty (rawHypergraph num_nodes num_hyperedges p rand) := by
  rcases scratch_ok_elim hok with ⟨comp, _, _, hhg⟩ | ⟨_, hhg⟩
  · subst hhg
    have hx2 := simpleStep_mem hx
    rcases List.mem_map.mp hx2 with ⟨i, _, hget⟩
    subst hget
    exact List.get_mem _ _ _
  · subst hhg
    exact simpleStep_mem hx

/-- **C7**: for every valid input and random draw, every hyperedge returned
by either generator (scratch or tree-based) is a tuple of pairwise-distinct
integer vertex ids listed in strictly ascending order. -/
theorem claim_C7_sorted_tuples :
    (∀ (num_nodes num_hyperedges : ℕ) (p : ℚ) (rand : ℕ → ℚ) (ms mc : Bool)
      (hg : Finset (List ℕ)),
      generate_random_hypergraph_from_scratch num_nodes num_hyperedges p rand
        ms mc = Except.ok hg →
      ∀ l ∈ hg, List.Sorted (· < ·) l) ∧
    (∀ (total_size : ℕ) (p : ℚ) (edges : List (ℕ × ℕ)) (root : ℕ)
      (rand : ℕ → ℕ → ℚ) (sperner : Bool) (hg : Finset (List ℕ)),
      generate_random_hypergraph_from_a_tree total_size p edges root rand
        sperner = Except.ok hg →
      ∀ l ∈ hg, List.Sorted (· < ·) l) := by
  constructor
  · intro nn nh p rand ms mc hg hok l hl
    have hmem := scratch_mem_raw hok hl
    exact rawHypergraph_sorted (List.mem_of_mem_filter hmem)
  · intro ts p edges root rand sp hg hok l hl
    rcases tree_ok_elim hok with rfl | rfl
    · simp at hl
    · rcases treeResult_mem hl with ⟨s, _, rfl⟩
      exact Finset.sort_sorted_lt s

/-- Witness for C7 at a concrete scratch run returning `{(0,1), (1,2)}`. -/
theorem claim_C7_sorted_tuples_witness : List.Sorted (· < ·) ([0, 1] : List ℕ) :=
  claim_C7_sorted_tuples.1 3 2 1 (fun k => if k = 2 ∨ k = 3 then 1 else 0)
    true false {[0, 1], [1, 2]} rfl [0, 1] (by decide)

end HG

namespace HG

/-! ## Lemmas about the BFS of the tree-based generator -/

theorem neighbors_adjE {edges : List (ℕ × ℕ)} {u v : ℕ}
    (h : v ∈ neighbors edges u) : adjE edges u v := by
  unfold neighbors at h
  rcases List.mem_filterMap.mp h with ⟨e, he, hfe⟩
  refine ⟨e, he, ?_⟩
  split at hfe
  next h1 =>
    left
    exact ⟨h1, Option.some.inj hfe⟩
  next h1 =>
    split at hfe
    next h2 =>
      right
      exact ⟨Option.some.inj hfe, h2⟩
    next h2 =>
      cases hfe

theorem bfsPush_vis_mono (nl : ℕ) :
    ∀ (ns q : List ℕ) (vis : Finset ℕ) (lv : ℕ → ℕ),
      vis ⊆ (bfsPush nl ns (q, vis, lv)).2.1 := by
  intro ns
  induction ns with
  | nil =>
    intro q vis lv
    rw [bfsPush]
  | cons v vs ih =>
    intro q vis lv
    by_cases hv : v ∈ vis
    · rw [bfsPush, if_pos hv]
      exact ih q vis lv
    · rw [bfsPush, if_neg hv]
      exact (Finset.subset_insert v vis).trans (ih _ _ _)

theorem bfsPush_lv_frozen (nl : ℕ) :
    ∀ (ns q : List ℕ) (vis : Finset ℕ) (lv : ℕ → ℕ) (x : ℕ), x ∈ vis →
      (bfsPush nl ns (q, vis, lv)).2.2 x = lv x := by
  intro ns
  induction ns with
  | nil =>
    intro q vis lv x _
    rw [bfsPush]
  | cons v vs ih =>
    intro q vis lv x hx
    by_cases hv : v ∈ vis
    · rw [bfsPush, if_pos hv]
      exact ih q vis lv x hx
    · rw [bfsPush, if_neg hv]
      rw [ih _ _ _ x (Finset.mem_insert_of_mem hx)]
      have hxv : ¬ x = v := by
        intro h
        subst h
        exact hv hx
      exact if_neg hxv

theorem bfsPush_queue_mono (nl : ℕ) :
    ∀ (ns q : List ℕ) (vis : Finset ℕ) (lv : ℕ → ℕ) (x : ℕ), x ∈ q →
      x ∈ (bfsPush nl ns (q, vis, lv)).1 := by
  intro ns
  induction ns with
  | nil =>
    intro q vis lv x hx
    rw [bfsPush]
    exact hx
  | cons v vs ih =>
    intro q vis lv x hx
    by_cases hv : v ∈ vis
    · rw [bfsPush, if_pos hv]
      exact ih q vis lv x hx
    · rw [bfsPush, if_neg hv]
      exact ih _ _ _ x (List.mem_append_left [v] hx)

/-- Everything in the queue after the neighbor loop is either an old queue
entry or a newly visited neighbor at level `nl`. -/
theorem bfsPush_new (nl : ℕ) :
    ∀ (ns q : List ℕ) (vis : Finset ℕ) (lv : ℕ → ℕ) (x : ℕ),
      x ∈ (bfsPush nl ns (q, vis, lv)).1 →
      x ∈ q ∨ (x ∈ ns ∧ x ∈ (bfsPush nl ns (q, vis, lv)).2.1 ∧
        (bfsPush nl ns (q, vis, lv)).2.2 x = nl ∧ x ∉ vis) := by
  intro ns
  induction ns with
  | nil =>
    intro q vis lv x hx
    rw [bfsPush] at hx
    exact Or.inl hx
  | cons v vs ih =>
    intro q vis lv x hx
    by_cases hv : v ∈ vis
    · rw [bfsPush, if_pos hv] at hx ⊢
      rcases ih _ _ _ x hx with h | ⟨h1, h2, h3, h4⟩
      · exact Or.inl h
      · exact Or.inr ⟨List.mem_cons_of_mem v h1, h2, h3, h4⟩
    · rw [bfsPush, if_neg hv] at hx ⊢
      rcases ih _ _ _ x hx with h | ⟨h1, h2, h3, h4⟩
      · rcases List.mem_append.mp h with h2 | h2
        · exact Or.inl h2
        · have hxv : x = v := by
            simpa using h2
          subst hxv
          refine Or.inr ⟨List.mem_cons_self x vs, ?_, ?_, hv⟩
          · exact bfsPush_vis_mono nl vs _ _ _ (Finset.mem_insert_self x vis)
          · rw [bfsPush_lv_frozen nl vs _ _ _ x (Finset.mem_insert_self x vis)]
            simp
      · refine Or.inr ⟨List.mem_cons_of_mem v h1, h2, h3,
          fun hxvis => h4 (Finset.mem_insert_of_mem hxvis)⟩

end HG

namespace HG

/-- The BFS invariant: partitions only contain visited nodes with levels of
the right parity, every `B`-member has an `A`-neighbor, queued nodes at odd
levels already have an `A`-parent, and queued nodes at even levels end up
in `A`. -/
theorem bfsLoop_inv (edges : List (ℕ × ℕ)) :
    ∀ (queue : List ℕ) (visited : Finset ℕ) (lv : ℕ → ℕ) (A B : Finset ℕ),
      (∀ x ∈ queue, x ∈ visited) →
      (∀ x ∈ A, lv x % 2 = 0) →
      (∀ x ∈ B, lv x % 2 = 1) →
      (∀ x ∈ A, x ∈ visited) →
      (∀ x ∈ B, x ∈ visited) →
      (∀ x ∈ B, ∃ u ∈ A, adjE edges u x) →
      (∀ v ∈ queue, lv v % 2 = 1 → ∃ u ∈ A, adjE edges u v) →
      A ⊆ (bfsLoop edges queue visited lv A B).1 ∧
      B ⊆ (bfsLoop edges queue visited lv A B).2 ∧
      (∀ x ∈ (bfsLoop edges queue visited lv A B).2,
        ∃ u ∈ (bfsLoop edges queue visited lv A B).1, adjE edges u x) ∧
      (∀ v ∈ queue, lv v % 2 = 0 → v ∈ (bfsLoop edges queue visited lv A B).1) ∧
      (∀ x ∈ (bfsLoop edges queue visited lv A B).1,
        x ∉ (bfsLoop edges queue visited lv A B).2) := by
  intro queue visited lv A B
  induction queue, visited, lv, A, B using bfsLoop.induct edges with
  | case1 visited lv A B =>
    intro hqv hA hB hAv hBv hBp hqp
    rw [bfsLoop]
    refine ⟨subset_rfl, subset_rfl, hBp, ?_, ?_⟩
    · intro v hv
      simp at hv
    · intro x hx hxB
      have h0 := hA x hx
      have h1 := hB x hxB
      omega
  | case2 visited lv A B u q heven ih =>
    intro hqv hA hB hAv hBv hBp hqp
    have huv : u ∈ visited := hqv u (List.mem_cons_self u q)
    have hfrozen := bfsPush_lv_frozen (lv u + 1) (neighbors edges u) q visited lv
    have hvmono := bfsPush_vis_mono (lv u + 1) (neighbors edges u) q visited lv
    have hqmono := bfsPush_queue_mono (lv u + 1) (neighbors edges u) q visited lv
    have hnew := bfsPush_new (lv u + 1) (neighbors edges u) q visited lv
    obtain ⟨ih1, ih2, ih3, ih4, ih5⟩ := ih
      (by
        intro x hx
        rcases hnew x hx with h | h
        · exact hvmono (hqv x (List.mem_cons_of_mem u h))
        · exact h.2.1)
      (by
        intro x hx
        rcases Finset.mem_insert.mp hx with heq | hx2
        · rw [heq, hfrozen u huv]
          exact heven
        · rw [hfrozen x (hAv x hx2)]
          exact hA x hx2)
      (by
        intro x hx
        rw [hfrozen x (hBv x hx)]
        exact hB x hx)
      (by
        intro x hx
        rcases Finset.mem_insert.mp hx with heq | hx2
        · rw [heq]
          exact hvmono huv
        · exact hvmono (hAv x hx2))
      (by
        intro x hx
        exact hvmono (hBv x hx))
      (by
        intro x hx
        rcases hBp x hx with ⟨w, hw, hadj⟩
        exact ⟨w, Finset.mem_insert_of_mem hw, hadj⟩)
      (by
        intro v hv hvodd
        rcases hnew v hv with h | h
        · rw [hfrozen v (hqv v (List.mem_cons_of_mem u h))] at hvodd
          rcases hqp v (List.mem_cons_of_mem u h) hvodd with ⟨w, hw, hadj⟩
          exact ⟨w, Finset.mem_insert_of_mem hw, hadj⟩
        · exact ⟨u, Finset.mem_insert_self u A, neighbors_adjE h.1⟩)
    rw [bfsLoop, if_pos heven]
    refine ⟨(Finset.subset_insert u A).trans ih1, ih2, ih3, ?_, ih5⟩
    intro v hv hveven
    rcases List.mem_cons.mp hv with rfl | hv2
    · exact ih1 (Finset.mem_insert_self v A)
    · refine ih4 v (hqmono v hv2) ?_
      rw [hfrozen v (hqv v (List.mem_cons_of_mem u hv2))]
      exact hveven
  | case3 visited lv A B u q hoddc ih =>
    intro hqv hA hB hAv hBv hBp hqp
    have huv : u ∈ visited := hqv u (List.mem_cons_self u q)
    have huodd : lv u % 2 = 1 := by omega
    have hfrozen := bfsPush_lv_frozen (lv u + 1) (neighbors edges u) q visited lv
    have hvmono := bfsPush_vis_mono (lv u + 1) (neighbors edges u) q visited lv
    have hqmono := bfsPush_queue_mono (lv u + 1) (neighbors edges u) q visited lv
    have hnew := bfsPush_new (lv u + 1) (neighbors edges u) q visited lv
    obtain ⟨ih1, ih2, ih3, ih4, ih5⟩ := ih
      (by
        intro x hx
        rcases hnew x hx with h | h
        · exact hvmono (hqv x (List.mem_cons_of_mem u h))
        · exact h.2.1)
      (by
        intro x hx
        rw [hfrozen x (hAv x hx)]
        exact hA x hx)
      (by
        intro x hx
        rcases Finset.mem_insert.mp hx with heq | hx2
        · rw [heq, hfrozen u huv]
          exact huodd
        · rw [hfrozen x (hBv x hx2)]
          exact hB x hx2)
      (by
        intro x hx
        exact hvmono (hAv x hx))
      (by
        intro x hx
        rcases Finset.mem_insert.mp hx with heq | hx2
        · rw [heq]
          exact hvmono huv
        · exact hvmono (hBv x hx2))
      (by
        intro x hx
        rcases Finset.mem_insert.mp hx with heq | hx2
        · rw [heq]
          exact hqp u (List.mem_cons_self u q) huodd
        · exact hBp x hx2)
      (by
        intro v hv hvodd
        rcases hnew v hv with h | h
        · rw [hfrozen v (hqv v (List.mem_cons_of_mem u h))] at hvodd
          exact hqp v (List.mem_cons_of_mem u h) hvodd
        · rw [h.2.2.1] at hvodd
          omega)
    rw [bfsLoop, if_neg hoddc]
    refine ⟨ih1, (Finset.subset_insert u B).trans ih2, ih3, ?_, ih5⟩
    intro v hv hveven
    rcases List.mem_cons.mp hv with rfl | hv2
    · exact absurd hveven hoddc
    · refine ih4 v (hqmono v hv2) ?_
      rw [hfrozen v (hqv v (List.mem_cons_of_mem u hv2))]
      exact hveven

/-- The root always lands in partition `A`. -/
theorem bfsRun_root_mem (edges : List (ℕ × ℕ)) (root : ℕ) :
    root ∈ (bfsRun edges root).1 := by
  unfold bfsRun
  obtain ⟨_, _, _, h4, _⟩ := bfsLoop_inv edges [root] {root} (fun _ => 0) ∅ ∅
    (by
      intro x hx
      rw [List.mem_singleton] at hx
      exact Finset.mem_singleton.mpr hx)
    (by intro x hx; simp at hx)
    (by intro x hx; simp at hx)
    (by intro x hx; simp at hx)
    (by intro x hx; simp at hx)
    (by intro x hx; simp at hx)
    (by intro v _ hodd; simp at hodd)
  exact h4 root (List.mem_singleton_self root) rfl

/-- Every member of partition `B` has an `A`-neighbor in the edge list. -/
theorem bfsRun_B_parents (edges : List (ℕ × ℕ)) (root : ℕ) :
    ∀ x ∈ (bfsRun edges root).2,
      ∃ u ∈ (bfsRun edges root).1, adjE edges u x := by
  unfold bfsRun
  obtain ⟨_, _, h3, _, _⟩ := bfsLoop_inv edges [root] {root} (fun _ => 0) ∅ ∅
    (by
      intro x hx
      rw [List.mem_singleton] at hx
      exact Finset.mem_singleton.mpr hx)
    (by intro x hx; simp at hx)
    (by intro x hx; simp at hx)
    (by intro x hx; simp at hx)
    (by intro x hx; simp at hx)
    (by intro x hx; simp at hx)
    (by intro v _ hodd; simp at hodd)
  exact h3

/-- The two partitions are disjoint. -/
theorem bfsRun_disjoint (edges : List (ℕ × ℕ)) (root : ℕ) :
    ∀ x ∈ (bfsRun edges root).1, x ∉ (bfsRun edges root).2 := by
  unfold bfsRun
  obtain ⟨_, _, _, _, h5⟩ := bfsLoop_inv edges [root] {root} (fun _ => 0) ∅ ∅
    (by
      intro x hx
      rw [List.mem_singleton] at hx
      exact Finset.mem_singleton.mpr hx)
    (by intro x hx; simp at hx)
    (by intro x hx; simp at hx)
    (by intro x hx; simp at hx)
    (by intro x hx; simp at hx)
    (by intro x hx; simp at hx)
    (by intro v _ hodd; simp at hodd)
  exact h5

end HG

namespace HG

/-! ## Claim C10: the tree-based generator always returns a hyperedge -/

theorem initialHyperedges_length_pos (edges : List (ℕ × ℕ)) (root : ℕ) :
    0 < (initialHyperedges edges root).length := by
  unfold initialHyperedges
  rw [List.length_map, Finset.length_sort]
  exact Finset.card_pos.mpr ⟨root, bfsRun_root_mem edges root⟩

theorem finalHyperedgeSets_length (p : ℚ) (edges : List (ℕ × ℕ)) (root : ℕ)
    (rand : ℕ → ℕ → ℚ) :
    (finalHyperedgeSets p edges root rand).length =
      (initialHyperedges edges root).length := by
  unfold finalHyperedgeSets
  rw [List.length_map, List.length_range]

/-- The final returned set of the tree-based generator is never empty: the
root's hyperedge always exists, and the Sperner pass keeps at least one
maximal element. -/
theorem treeResult_nonempty (p : ℚ) (edges : List (ℕ × ℕ)) (root : ℕ)
    (rand : ℕ → ℕ → ℚ) (sperner : Bool) :
    (treeResult p edges root rand sperner).Nonempty := by
  have hpos : 0 < (finalHyperedgeSets p edges root rand).length := by
    rw [finalHyperedgeSets_length]
    exact initialHyperedges_length_pos edges root
  unfold treeResult
  split
  · have hne : dedupFirst (finalHyperedgeSets p edges root rand) ≠ [] := by
      rcases hfs2 : finalHyperedgeSets p edges root rand with _ | ⟨a, r⟩
      · rw [hfs2] at hpos
        simp at hpos
      · intro hnil
        have ha : a ∈ dedupFirst (a :: r) :=
          (mem_dedupFirst _ a).mpr (List.mem_cons_self a r)
        rw [hnil] at ha
        simp at ha
    have hsf := spernerFilter_ne_nil hne
    rcases hsf2 : spernerFilter (dedupFirst (finalHyperedgeSets p edges root rand))
      with _ | ⟨s, r⟩
    · exact absurd hsf2 hsf
    · refine ⟨s.sort (· ≤ ·), ?_⟩
      rw [List.mem_toFinset]
      exact List.mem_map_of_mem _ (List.mem_cons_self s r)
  · rcases hfs2 : finalHyperedgeSets p edges root rand with _ | ⟨a, r⟩
    · rw [hfs2] at hpos
      simp at hpos
    · refine ⟨a.sort (· ≤ ·), ?_⟩
      rw [List.mem_toFinset]
      exact List.mem_map_of_mem _ (List.mem_cons_self a r)

/-- **C10**: for every `total_size ≥ 1`, `p ∈ [0,1]`, either `sperner` flag
and any random draw (tree, root and Bernoulli draws), the tree-based
generator returns successfully and the returned set contains at least one
hyperedge: the BFS root always lies in partition `A`, and the Sperner
reduction never removes a maximal hyperedge. -/
theorem claim_C10_nonempty {total_size : ℕ} {p : ℚ} (edges : List (ℕ × ℕ))
    (root : ℕ) (rand : ℕ → ℕ → ℚ) (sperner : Bool)
    (h1 : 1 ≤ total_size) (hp : 0 ≤ p ∧ p ≤ 1) :
    ∃ hg, generate_random_hypergraph_from_a_tree total_size p edges root rand
      sperner = Except.ok hg ∧ hg.Nonempty :=
  ⟨treeResult p edges root rand sperner,
    tree_ok_result edges root rand sperner h1 hp,
    treeResult_nonempty p edges root rand sperner⟩

/-- Witness for C10 at the concrete input `total_size = 1`, `p = 0`. -/
theorem claim_C10_nonempty_witness :
    ∃ hg, generate_random_hypergraph_from_a_tree 1 0 [] 0 (fun _ _ => 0)
      false = Except.ok hg ∧ hg.Nonempty :=
  @claim_C10_nonempty 1 0 [] 0 (fun _ _ => 0) false (by omega) (by norm_num)

end HG

namespace HG

/-! ## Claim C6: vertex ids are exactly `{0, ..., |B| - 1}` -/

theorem tree_ok_elim_pos {total_size : ℕ} {p : ℚ} {edges : List (ℕ × ℕ)}
    {root : ℕ} {rand : ℕ → ℕ → ℚ} {sperner : Bool} {hg : Finset (List ℕ)}
    (h1 : 1 ≤ total_size)
    (hok : generate_random_hypergraph_from_a_tree total_size p edges root rand
      sperner = Except.ok hg) :
    hg = treeResult p edges root rand sperner := by
  unfold generate_random_hypergraph_from_a_tree at hok
  rw [if_neg (by omega)] at hok
  split at hok
  · cases hok
  · exact (Except.ok.inj hok).symm

/-- Renamed ids of `B`-members are below `num_vertices`. -/
theorem vertexMapping_lt {edges : List (ℕ × ℕ)} {root : ℕ} {b : ℕ}
    (hb : b ∈ (bfsRun edges root).2) :
    vertexMapping edges root b < numVertices edges root := by
  unfold vertexMapping numVertices
  have hmem : b ∈ sortedB edges root := by
    unfold sortedB
    rw [Finset.mem_sort]
    exact hb
  have hlt := List.indexOf_lt_length.mpr hmem
  unfold sortedB at hlt
  rw [Finset.length_sort] at hlt
  exact hlt

/-- Every id below `num_vertices` is the renamed id of some `B`-member. -/
theorem vertexMapping_surj {edges : List (ℕ × ℕ)} {root : ℕ} {n : ℕ}
    (hn : n < numVertices edges root) :
    ∃ b ∈ (bfsRun edges root).2, vertexMapping edges root b = n := by
  have hlen : n < (sortedB edges root).length := by
    unfold sortedB
    rw [Finset.length_sort]
    exact hn
  refine ⟨(sortedB edges root)[n], ?_, ?_⟩
  · have h2 : (sortedB edges root)[n] ∈ sortedB edges root := List.getElem_mem hlen
    unfold sortedB at h2
    rw [Finset.mem_sort] at h2
    exact h2
  · unfold vertexMapping
    exact List.indexOf_getElem (by unfold sortedB; exact Finset.sort_nodup _ _) n hlen

theorem initialDict_fold_mono (A B : Finset ℕ) (vmap : ℕ → ℕ) :
    ∀ (es : List (ℕ × ℕ)) (f : ℕ → Finset ℕ) (x : ℕ),
      f x ⊆ (es.foldl (fun f e =>
        if e.1 ∈ A ∧ e.2 ∈ B then
          fun y => if y = e.1 then insert (vmap e.2) (f y) else f y
        else if e.2 ∈ A ∧ e.1 ∈ B then
          fun y => if y = e.2 then insert (vmap e.1) (f y) else f y
        else f) f) x := by
  intro es
  induction es with
  | nil =>
    intro f x
    simp
  | cons e es ih =>
    intro f x
    simp only [List.foldl_cons]
    refine subset_trans ?_ (ih _ x)
    by_cases h1 : e.1 ∈ A ∧ e.2 ∈ B
    · rw [if_pos h1]
      split
      · exact Finset.subset_insert _ _
      · exact subset_rfl
    · rw [if_neg h1]
      by_cases h2 : e.2 ∈ A ∧ e.1 ∈ B
      · rw [if_pos h2]
        split
        · exact Finset.subset_insert _ _
        · exact subset_rfl
      · rw [if_neg h2]

/-- If the edge list holds an edge between `a ∈ A` and `b ∈ B`, the edge
loop adds the renamed `b` to `a`'s hyperedge. -/
theorem initialDict_fold_hit (A B : Finset ℕ) (vmap : ℕ → ℕ)
    (hAB : ∀ x ∈ A, x ∉ B) {a b : ℕ} (ha : a ∈ A) (hb : b ∈ B) :
    ∀ (es : List (ℕ × ℕ)) (f : ℕ → Finset ℕ), adjE es a b →
      vmap b ∈ (es.foldl (fun f e =>
        if e.1 ∈ A ∧ e.2 ∈ B then
          fun y => if y = e.1 then insert (vmap e.2) (f y) else f y
        else if e.2 ∈ A ∧ e.1 ∈ B then
          fun y => if y = e.2 then insert (vmap e.1) (f y) else f y
        else f) f) a := by
  intro es
  induction es with
  | nil =>
    rintro f ⟨e, he, _⟩
    simp at he
  | cons e0 es ih =>
    rintro f ⟨e, he, hcase⟩
    simp only [List.foldl_cons]
    rcases List.mem_cons.mp he with heq | hrest
    · subst heq
      apply Finset.mem_of_subset (initialDict_fold_mono A B vmap es _ a)
      rcases hcase with ⟨h1, h2⟩ | ⟨h1, h2⟩
      · rw [if_pos (by rw [h1, h2]; exact ⟨ha, hb⟩)]
        rw [if_pos h1.symm, h2]
        exact Finset.mem_insert_self _ _
      · have hn1 : ¬ (e.1 ∈ A ∧ e.2 ∈ B) := by
          rintro ⟨hA1, _⟩
          rw [h1] at hA1
          exact (hAB b hA1) hb
        rw [if_neg hn1, if_pos (by rw [h1, h2]; exact ⟨ha, hb⟩)]
        rw [if_pos h2.symm, h1]
        exact Finset.mem_insert_self _ _
    · exact ih _ ⟨e, hrest, hcase⟩

/-- All ids the edge loop ever inserts are below `num_vertices`. -/
theorem initialDict_subset (edges : List (ℕ × ℕ)) (root : ℕ) :
    ∀ x, initialDict edges (bfsRun edges root).1 (bfsRun edges root).2
      (vertexMapping edges root) x ⊆ Finset.range (numVertices edges root) := by
  unfold initialDict
  suffices h : ∀ (es : List (ℕ × ℕ)) (f : ℕ → Finset ℕ),
      (∀ y, f y ⊆ Finset.range (numVertices edges root)) →
      ∀ x, (es.foldl (fun f e =>
        if e.1 ∈ (bfsRun edges root).1 ∧ e.2 ∈ (bfsRun edges root).2 then
          fun y => if y = e.1 then insert (vertexMapping edges root e.2) (f y) else f y
        else if e.2 ∈ (bfsRun edges root).1 ∧ e.1 ∈ (bfsRun edges root).2 then
          fun y => if y = e.2 then insert (vertexMapping edges root e.1) (f y) else f y
        else f) f) x ⊆ Finset.range (numVertices edges root) by
    exact h edges _ (fun y => by simp) 
  intro es
  induction es with
  | nil =>
    intro f hf x
    simpa using hf x
  | cons e es ih =>
    intro f hf x
    simp only [List.foldl_cons]
    refine ih _ ?_ x
    intro y
    by_cases h1 : e.1 ∈ (bfsRun edges root).1 ∧ e.2 ∈ (bfsRun edges root).2
    · rw [if_pos h1]
      split
      · rw [Finset.insert_subset_iff]
        exact ⟨Finset.mem_range.mpr (vertexMapping_lt h1.2), hf y⟩
      · exact hf y
    · rw [if_neg h1]
      by_cases h2 : e.2 ∈ (bfsRun edges root).1 ∧ e.1 ∈ (bfsRun edges root).2
      · rw [if_pos h2]
        split
        · rw [Finset.insert_subset_iff]
          exact ⟨Finset.mem_range.mpr (vertexMapping_lt h2.2), hf y⟩
        · exact hf y
      · rw [if_neg h2]
        exact hf y

theorem mem_initialHyperedges_of_A {edges : List (ℕ × ℕ)} {root : ℕ} {a : ℕ}
    (ha : a ∈ (bfsRun edges root).1) :
    initialDict edges (bfsRun edges root).1 (bfsRun edges root).2
      (vertexMapping edges root) a ∈ initialHyperedges edges root := by
  unfold initialHyperedges
  exact List.mem_map_of_mem _ ((Finset.mem_sort _).mpr ha)

theorem initialHyperedges_subset {edges : List (ℕ × ℕ)} {root : ℕ}
    {s : Finset ℕ} (hs : s ∈ initialHyperedges edges root) :
    s ⊆ Finset.range (numVertices edges root) := by
  unfold initialHyperedges at hs
  rcases List.mem_map.mp hs with ⟨a, _, rfl⟩
  exact initialDict_subset edges root a

theorem perturbOne_superset (p : ℚ) (randi : ℕ → ℚ) (numV : ℕ) (s : Finset ℕ) :
    s ⊆ perturbOne p randi numV s :=
  Finset.subset_union_left

theorem perturbOne_subset {p : ℚ} {randi : ℕ → ℚ} {numV : ℕ} {s : Finset ℕ}
    (hs : s ⊆ Finset.range numV) :
    perturbOne p randi numV s ⊆ Finset.range numV := by
  unfold perturbOne
  refine Finset.union_subset hs ?_
  exact subset_trans (Finset.filter_subset _ _) Finset.sdiff_subset

/-- Every final hyperedge set stays inside `range num_vertices`. -/
theorem finalHyperedgeSets_subset {p : ℚ} {edges : List (ℕ × ℕ)} {root : ℕ}
    {rand : ℕ → ℕ → ℚ} {s : Finset ℕ}
    (hs : s ∈ finalHyperedgeSets p edges root rand) :
    s ⊆ Finset.range (numVertices edges root) := by
  unfold finalHyperedgeSets at hs
  rcases List.mem_map.mp hs with ⟨i, hi, rfl⟩
  rw [List.mem_range] at hi
  exact perturbOne_subset (initialHyperedges_subset (getD_mem _ ∅ hi))

/-- Every initial hyperedge is contained in its perturbed final version. -/
theorem finalHyperedgeSets_cover {p : ℚ} {edges : List (ℕ × ℕ)} {root : ℕ}
    {rand : ℕ → ℕ → ℚ} {s : Finset ℕ} (hs : s ∈ initialHyperedges edges root) :
    ∃ t ∈ finalHyperedgeSets p edges root rand, s ⊆ t := by
  rcases List.mem_iff_getElem.mp hs with ⟨i, hi, hgi⟩
  refine ⟨perturbOne p (rand i) (numVertices edges root)
    ((initialHyperedges edges root).getD i ∅), ?_, ?_⟩
  · unfold finalHyperedgeSets
    refine List.mem_map.mpr ⟨i, ?_, rfl⟩
    rw [List.mem_range]
    exact hi
  · rw [List.getD_eq_getElem _ ∅ hi, hgi]
    exact perturbOne_superset _ _ _ _

/-- A vertex occurs in the returned set iff it occurs in some final
hyperedge set: the Sperner pass never loses vertices, because every removed
set is contained in a surviving one. -/
theorem treeResult_exists_iff (p : ℚ) (edges : List (ℕ × ℕ)) (root : ℕ)
    (rand : ℕ → ℕ → ℚ) (sperner : Bool) (v : ℕ) :
    (∃ x ∈ treeResult p edges root rand sperner, v ∈ x.toFinset) ↔
    (∃ s ∈ finalHyperedgeSets p edges root rand, v ∈ s) := by
  unfold treeResult
  constructor
  · rintro ⟨x, hx, hv⟩
    rw [List.mem_toFinset] at hx
    split at hx
    · rcases List.mem_map.mp hx with ⟨s, hsm, rfl⟩
      rw [Finset.sort_toFinset] at hv
      have hsl := (spernerFilter_maximal hsm).1
      rw [mem_dedupFirst] at hsl
      exact ⟨s, hsl, hv⟩
    · rcases List.mem_map.mp hx with ⟨s, hsm, rfl⟩
      rw [Finset.sort_toFinset] at hv
      exact ⟨s, hsm, hv⟩
  · rintro ⟨s, hs, hv⟩
    split
    · rcases spernerFilter_cover ((mem_dedupFirst _ s).mpr hs) with ⟨t, ht, hst⟩
      refine ⟨t.sort (· ≤ ·), ?_, ?_⟩
      · rw [List.mem_toFinset]
        exact List.mem_map_of_mem _ ht
      · rw [Finset.sort_toFinset]
        exact hst hv
    · refine ⟨s.sort (· ≤ ·), ?_, ?_⟩
      · rw [List.mem_toFinset]
        exact List.mem_map_of_mem _ hs
      · rw [Finset.sort_toFinset]
        exact hv

/-- **C6**: for every `total_size ≥ 1`, valid `p`, either `sperner` flag and
any random draw, the union of the vertex ids over all returned hyperedges is
exactly `{0, ..., num_vertices - 1}` where `num_vertices` is the size of the
odd-level BFS partition `B`: no gaps and no out-of-range ids, even after the
Sperner reduction. -/
theorem claim_C6_vertex_range {total_size : ℕ} {p : ℚ} {edges : List (ℕ × ℕ)}
    {root : ℕ} {rand : ℕ → ℕ → ℚ} {sperner : Bool} {hg : Finset (List ℕ)}
    (hok : generate_random_hypergraph_from_a_tree total_size p edges root rand
      sperner = Except.ok hg)
    (h1 : 1 ≤ total_size) :
    hg.biUnion List.toFinset = Finset.range (numVertices edges root) := by
  have hhg := tree_ok_elim_pos h1 hok
  subst hhg
  ext v
  rw [Finset.mem_biUnion]
  rw [treeResult_exists_iff]
  constructor
  · rintro ⟨s, hs, hv⟩
    exact finalHyperedgeSets_subset hs hv
  · intro hv
    rw [Finset.mem_range] at hv
    obtain ⟨b, hb, hvb⟩ := vertexMapping_surj hv
    obtain ⟨a, ha, hadj⟩ := bfsRun_B_parents edges root b hb
    have hdict : vertexMapping edges root b ∈
        initialDict edges (bfsRun edges root).1 (bfsRun edges root).2
          (vertexMapping edges root) a := by
      unfold initialDict
      exact initialDict_fold_hit _ _ _ (bfsRun_disjoint edges root) ha hb edges _ hadj
    obtain ⟨t, ht, hsub⟩ := finalHyperedgeSets_cover (mem_initialHyperedges_of_A ha)
    refine ⟨t, ht, ?_⟩
    rw [← hvb]
    exact hsub hdict

/-- Witness for C6 at the concrete input `total_size = 1`, `p = 0`:
partition `B` is empty and the only hyperedge is the empty tuple. -/
theorem claim_C6_vertex_range_witness :
    ({[]} : Finset (List ℕ)).biUnion List.toFinset =
      Finset.range (numVertices [] 0) :=
  claim_C6_vertex_range (tree_eval_one (fun _ _ => 0) false) (by omega)

end HG

namespace HG

/-! ## Connectivity of the components found by the reachability search -/

/-- Inserting a node adjacent to a component keeps it pairwise reachable. -/
theorem reach_insert {n : ℕ} (adj : ℕ → ℕ → Bool)
    (hsym : ∀ x y, adj x y = adj y x) (comp : Finset (Fin n)) (node : Fin n)
    (hconn : ∀ a ∈ comp, ∀ b ∈ comp, Relation.ReflTransGen
      (fun x y => x ∈ comp ∧ y ∈ comp ∧ adj x.val y.val = true) a b)
    (hpar : comp.Nonempty → ∃ u ∈ comp, adj u.val node.val = true) :
    ∀ a ∈ insert node comp, ∀ b ∈ insert node comp, Relation.ReflTransGen
      (fun x y => x ∈ insert node comp ∧ y ∈ insert node comp ∧
        adj x.val y.val = true) a b := by
  intro a ha b hb
  have hmono : ∀ x y, Relation.ReflTransGen
      (fun x y => x ∈ comp ∧ y ∈ comp ∧ adj x.val y.val = true) x y →
      Relation.ReflTransGen
        (fun x y => x ∈ insert node comp ∧ y ∈ insert node comp ∧
          adj x.val y.val = true) x y := by
    intro x y h
    refine Relation.ReflTransGen.mono ?_ h
    rintro x y ⟨h1, h2, h3⟩
    exact ⟨Finset.mem_insert_of_mem h1, Finset.mem_insert_of_mem h2, h3⟩
  rcases Finset.mem_insert.mp ha with rfl | ha2
  · rcases Finset.mem_insert.mp hb with rfl | hb2
    · exact Relation.ReflTransGen.refl
    · rcases hpar ⟨b, hb2⟩ with ⟨u, hu, hadj⟩
      refine Relation.ReflTransGen.head
        ⟨Finset.mem_insert_self a comp, Finset.mem_insert_of_mem hu, ?_⟩
        (hmono u b (hconn u hu b hb2))
      rw [hsym]
      exact hadj
  · rcases Finset.mem_insert.mp hb with rfl | hb2
    · rcases hpar ⟨a, ha2⟩ with ⟨u, hu, hadj⟩
      exact Relation.ReflTransGen.tail (hmono a u (hconn a ha2 u hu))
        ⟨Finset.mem_insert_of_mem hu, Finset.mem_insert_self b comp, hadj⟩
    · exact hmono a b (hconn a ha2 b hb2)

/-- Every component the search builds is pairwise reachable within itself:
each popped unvisited index is adjacent to the component built so far. -/
theorem dfsLoop_conn {n : ℕ} (adj : ℕ → ℕ → Bool)
    (hsym : ∀ x y, adj x y = adj y x) :
    ∀ (fuel : ℕ) (visited comp : Finset (Fin n)) (stack : List (Fin n)),
      (comp = ∅ → stack.length ≤ 1) →
      (∀ v ∈ stack, comp.Nonempty → ∃ u ∈ comp, adj u.val v.val = true) →
      (∀ a ∈ comp, ∀ b ∈ comp, Relation.ReflTransGen
        (fun x y => x ∈ comp ∧ y ∈ comp ∧ adj x.val y.val = true) a b) →
      ∀ a ∈ (dfsLoop n adj fuel visited comp stack).2,
        ∀ b ∈ (dfsLoop n adj fuel visited comp stack).2,
        Relation.ReflTransGen
          (fun x y => x ∈ (dfsLoop n adj fuel visited comp stack).2 ∧
            y ∈ (dfsLoop n adj fuel visited comp stack).2 ∧
            adj x.val y.val = true) a b := by
  intro fuel
  induction fuel with
  | zero =>
    intro visited comp stack _ _ hconn
    rw [dfsLoop]
    exact hconn
  | succ fuel ih =>
    intro visited comp stack hlen hstack hconn
    match stack with
    | [] =>
      rw [dfsLoop]
      exact hconn
    | node :: rest =>
      by_cases hv : node ∈ visited
      · rw [dfsLoop, if_pos hv]
        refine ih visited comp rest ?_ ?_ hconn
        · intro hc
          have h2 := hlen hc
          simp only [List.length_cons] at h2
          omega
        · intro v hvr
          exact hstack v (List.mem_cons_of_mem node hvr)
      · rw [dfsLoop, if_neg hv]
        refine ih _ _ _ ?_ ?_ ?_
        · intro hc
          exact absurd hc (by simp)
        · intro v hvr hne
          rcases List.mem_append.mp hvr with hvp | hvrest
          · rw [List.mem_reverse] at hvp
            have := List.mem_filter.mp hvp
            refine ⟨node, Finset.mem_insert_self node comp, ?_⟩
            have h2 := this.2
            rw [Bool.and_eq_true] at h2
            exact h2.2
          · have hcomp : comp.Nonempty := by
              by_contra hcne
              rw [Finset.not_nonempty_iff_eq_empty] at hcne
              have := hlen hcne
              simp at this
              rw [this] at hvrest
              simp at hvrest
            rcases hstack v (List.mem_cons_of_mem node hvrest) hcomp with ⟨u, hu, hadj⟩
            exact ⟨u, Finset.mem_insert_of_mem hu, hadj⟩
        · refine reach_insert adj hsym comp node hconn ?_
          intro hcomp
          exact hstack node (List.mem_cons_self node rest) hcomp

/-- Every collected component is pairwise reachable within itself. -/
theorem ccLoop_conn {n : ℕ} (adj : ℕ → ℕ → Bool)
    (hsym : ∀ x y, adj x y = adj y x) :
    ∀ (is : List (Fin n)) (visited : Finset (Fin n))
      (acc : List (Finset (Fin n))),
      (∀ C ∈ acc, ∀ a ∈ C, ∀ b ∈ C, Relation.ReflTransGen
        (fun x y => x ∈ C ∧ y ∈ C ∧ adj x.val y.val = true) a b) →
      ∀ C ∈ ccLoop n adj is visited acc, ∀ a ∈ C, ∀ b ∈ C,
        Relation.ReflTransGen
          (fun x y => x ∈ C ∧ y ∈ C ∧ adj x.val y.val = true) a b := by
  intro is
  induction is with
  | nil =>
    intro visited acc hacc C hC
    rw [ccLoop] at hC
    exact hacc C hC
  | cons i rest ih =>
    intro visited acc hacc C hC
    rw [ccLoop] at hC
    split at hC
    · exact ih _ _ hacc C hC
    · refine ih _ _ ?_ C hC
      intro D hD
      rcases List.mem_append.mp hD with hD2 | hD2
      · exact hacc D hD2
      · have hDval : D = (dfsLoop n adj (n * (n + 2) + 1) visited ∅ [i]).2 := by
          simpa using hD2
        subst hDval
        refine dfsLoop_conn adj hsym _ visited ∅ [i] ?_ ?_ ?_
        · intro _
          simp
        · intro v _ hne
          exact absurd hne (by simp)
        · intro a ha
          simp at ha

/-- `max(..., key=len)` picks an element of the component list. -/
theorem largestComponent_mem {α : Type} {comps : List (Finset α)}
    {c : Finset α} (h : largestComponent comps = some c) : c ∈ comps := by
  rcases comps with _ | ⟨c0, cs⟩
  · cases h
  · have hfold : ∀ (l : List (Finset α)) (b : Finset α),
        l.foldl (fun b x => if b.card < x.card then x else b) b = b ∨
        l.foldl (fun b x => if b.card < x.card then x else b) b ∈ l := by
      intro l
      induction l with
      | nil =>
        intro b
        exact Or.inl rfl
      | cons x l ihl =>
        intro b
        simp only [List.foldl_cons]
        rcases ihl (if b.card < x.card then x else b) with h2 | h2
        · rw [h2]
          split
          · exact Or.inr (List.mem_cons_self x l)
          · exact Or.inl rfl
        · exact Or.inr (List.mem_cons_of_mem x h2)
    unfold largestComponent at h
    have hc := Option.some.inj h
    rcases hfold cs c0 with h2 | h2
    · rw [hc] at h2
      rw [h2]
      exact List.mem_cons_self c0 cs
    · rw [hc] at h2
      exact List.mem_cons_of_mem c0 h2

end HG

namespace HG

/-! ## Claim C3: the connected branch returns a connected hypergraph -/

theorem interAdj_symm (L : List (List ℕ)) :
    ∀ x y, interAdj L x y = interAdj L y x := by
  intro x y
  unfold interAdj
  rw [Finset.inter_comm]

theorem dropEmpty_no_nil {M : List (List ℕ)} {h : List ℕ}
    (hh : h ∈ dropEmpty M) : h.toFinset.Nonempty := by
  unfold dropEmpty at hh
  have hf := List.of_mem_filter hh
  rcases h with _ | ⟨a, t⟩
  · simp at hf
  · exact ⟨a, by simp⟩

/-- A pairwise-reachable set of row indices maps to a connected set of
hyperedges. -/
theorem mapped_component_connected (L : List (List ℕ))
    (hne : ∀ h ∈ L, h.toFinset.Nonempty)
    (comp : Finset (Fin L.length))
    (hconn : ∀ a ∈ comp, ∀ b ∈ comp, Relation.ReflTransGen
      (fun x y => x ∈ comp ∧ y ∈ comp ∧ interAdj L x.val y.val = true) a b) :
    hgConnected ((comp.sort (· ≤ ·)).map (fun i => L.get i)).toFinset := by
  intro a ha b hb
  rw [List.mem_toFinset] at ha hb
  rcases List.mem_map.mp ha with ⟨i, hi, rfl⟩
  rcases List.mem_map.mp hb with ⟨j, hj, rfl⟩
  rw [Finset.mem_sort] at hi hj
  refine Relation.ReflTransGen.lift (fun k : Fin L.length => L.get k) ?_
    (hconn i hi j hj)
  rintro x y ⟨hx, hy, hadj⟩
  refine ⟨?_, ?_, ?_⟩
  · rw [List.mem_toFinset]
    exact List.mem_map_of_mem _ ((Finset.mem_sort _).mpr hx)
  · rw [List.mem_toFinset]
    exact List.mem_map_of_mem _ ((Finset.mem_sort _).mpr hy)
  · unfold interAdj at hadj
    rw [decide_eq_true_eq] at hadj
    rw [List.getD_eq_getElem _ _ x.isLt, List.getD_eq_getElem _ _ y.isLt] at hadj
    simpa [List.get_eq_getElem] using hadj

/-- Connectivity survives passing to a covering subfamily: every kept
hyperedge of the cover contains some original, so shared vertices persist. -/
theorem hgConnected_of_cover {hg1 T : Finset (List ℕ)}
    (hT : T ⊆ hg1) (hne : ∀ x ∈ hg1, x.toFinset.Nonempty)
    (hcover : ∀ x ∈ hg1, ∃ y ∈ T, x.toFinset ⊆ y.toFinset)
    (hconn : hgConnected hg1) : hgConnected T := by
  intro a ha b hb
  have hpath := hconn a (hT ha) b (hT hb)
  have key : ∀ x, Relation.ReflTransGen (hgStep hg1) x b → x ∈ hg1 →
      ∀ x' ∈ T, x.toFinset ⊆ x'.toFinset →
      Relation.ReflTransGen (hgStep T) x' b := by
    intro x hx
    induction hx using Relation.ReflTransGen.head_induction_on with
    | refl =>
      intro hb1 x' hx'T hsub
      rcases hne b hb1 with ⟨v, hv⟩
      exact Relation.ReflTransGen.single
        ⟨hx'T, hb, ⟨v, Finset.mem_inter.mpr ⟨hsub hv, hv⟩⟩⟩
    | head hstep htail ihx =>
      intro ha1 a' ha'T hsuba
      obtain ⟨hah, hch, hint⟩ := hstep
      obtain ⟨c', hc'T, hsubc⟩ := hcover _ hch
      obtain ⟨v, hv⟩ := hint
      rw [Finset.mem_inter] at hv
      exact Relation.ReflTransGen.head
        ⟨ha'T, hc'T, ⟨v, Finset.mem_inter.mpr ⟨hsuba hv.1, hsubc hv.2⟩⟩⟩
        (ihx hch c' hc'T hsubc)
  exact key a hpath (hT ha) a ha subset_rfl

/-- **C3**: whenever the scratch generator is called with
`make_connected = true` (either `make_simple` flag) and returns at least two
hyperedges, the intersection graph over the returned hyperedges — two
hyperedges adjacent iff they share a vertex — is connected; in particular
the subset-removal pass never disconnects the selected largest component. -/
theorem claim_C3_connected {num_nodes num_hyperedges : ℕ} {p : ℚ}
    {rand : ℕ → ℚ} {ms : Bool} {hg : Finset (List ℕ)}
    (hok : generate_random_hypergraph_from_scratch num_nodes num_hyperedges p
      rand ms true = Except.ok hg)
    (h2 : 2 ≤ hg.card) : hgConnected hg := by
  rcases scratch_ok_elim hok with ⟨comp, hcomp, _, hhg⟩ | ⟨hfalse, _⟩
  swap
  · cases hfalse
  subst hhg
  have hmem := largestComponent_mem hcomp
  unfold connectedComponents at hmem
  have hcc := ccLoop_conn
    (interAdj (dropEmpty (rawHypergraph num_nodes num_hyperedges p rand)))
    (interAdj_symm _) (List.finRange _) ∅ []
    (by intro C hC; simp at hC) comp hmem
  have hg1conn := mapped_component_connected _
    (fun h hh => dropEmpty_no_nil hh) comp hcc
  cases ms with
  | false =>
    rw [simpleStep_false]
    exact hg1conn
  | true =>
    rw [simpleStep_true]
    refine hgConnected_of_cover ?_ (fun x hx => ?_) (fun x hx => ?_) hg1conn
    · intro x hx
      rw [List.mem_toFinset] at hx ⊢
      rcases (mem_makeSimple _ x).mp hx with ⟨i, hi, _, hxe⟩
      rw [← hxe]
      exact getD_mem _ [] hi
    · rw [List.mem_toFinset] at hx
      rcases List.mem_map.mp hx with ⟨i, _, rfl⟩
      exact dropEmpty_no_nil (List.get_mem _ _ _)
    · rw [List.mem_toFinset] at hx
      rcases List.mem_iff_getElem.mp hx with ⟨i, hi, hxe⟩
      obtain ⟨j, hj, hjM, hsub⟩ := simpleMarks_superset _ hi
      refine ⟨((comp.sort (· ≤ ·)).map
          (fun k => (dropEmpty (rawHypergraph num_nodes num_hyperedges p rand)).get k)).getD j [],
        ?_, ?_⟩
      · rw [List.mem_toFinset, mem_makeSimple]
        exact ⟨j, hj, hjM, rfl⟩
      · rw [List.getD_eq_getElem _ _ hi, hxe] at hsub
        exact hsub

end HG

namespace HG

/-! ## Concrete evaluations and witnesses for C3 and C4 -/

/-- Sorting a two-element finset of naturals. -/
theorem sort_pair {a b : ℕ} (h : a < b) :
    ({a, b} : Finset ℕ).sort (· ≤ ·) = [a, b] := by
  rw [Finset.sort_insert, Finset.sort_singleton]
  · intro c hc
    rw [Finset.mem_singleton] at hc
    omega
  · rw [Finset.mem_singleton]
    omega

/-- With `make_connected = true` and a largest component `c` found, the
scratch generator returns the simple-step of the rows indexed by `c` in
ascending index order. -/
theorem scratch_mc_eval {nn nh : ℕ} {p : ℚ} {rand : ℕ → ℚ} {ms : Bool}
    {c : Finset (Fin (dropEmpty (rawHypergraph nn nh p rand)).length)}
    (h1 : largestComponent (connectedComponents
      (dropEmpty (rawHypergraph nn nh p rand))) = some c) :
    generate_random_hypergraph_from_scratch nn nh p rand ms true =
      Except.ok (simpleStep ms ((c.sort (· ≤ ·)).map
        (fun i => (dropEmpty (rawHypergraph nn nh p rand)).get i))) := by
  unfold generate_random_hypergraph_from_scratch
  rw [if_pos rfl, h1]

/-- A concrete run of the scratch generator with `make_connected = true`:
three nodes, two hyperedges, `p = 1` forces every membership draw except
nodes 2 and 3 of the stream to be kept. -/
theorem scratch_eval_connected :
    generate_random_hypergraph_from_scratch 3 2 1
      (fun k => if k = 2 ∨ k = 3 then 1 else 0) true true =
      Except.ok {[0, 1], [1, 2]} := by
  have h0 : connectedComponents (dropEmpty (rawHypergraph 3 2 1
      (fun k => if k = 2 ∨ k = 3 then 1 else 0))) =
      [{⟨0, by decide⟩, ⟨1, by decide⟩}] := by decide
  have h1 : largestComponent (connectedComponents (dropEmpty (rawHypergraph 3 2 1
      (fun k => if k = 2 ∨ k = 3 then 1 else 0)))) =
      some {⟨0, by decide⟩, ⟨1, by decide⟩} := by
    rw [h0]
    rfl
  rw [scratch_mc_eval h1]
  rw [Finset.sort_insert, Finset.sort_singleton]
  · rfl
  · decide
  · decide

/-- Witness for C3: the hypergraph `{(0,1), (1,2)}` produced by the run
above is connected. -/
theorem claim_C3_connected_witness : hgConnected {[0, 1], [1, 2]} :=
  claim_C3_connected scratch_eval_connected (by decide)

/-- A concrete run of the tree-based generator on the path
`0 - 1 - 2 - 3 - 4` rooted at `1` with `p = 0` (no perturbation): the BFS
puts `{1, 3}` at even levels and `{0, 2, 4}` at odd levels, so the
hyperedges are the renamed neighborhoods of `1` and `3`. -/
theorem tree_eval_path :
    generate_random_hypergraph_from_a_tree 5 0 [(0,1),(1,2),(2,3),(3,4)] 1
      (fun _ _ => 1) true = Except.ok {[0, 1], [1, 2]} := by
  have hrun : bfsRun [(0,1),(1,2),(2,3),(3,4)] 1 = ({1, 3}, {0, 2, 4}) := by
    unfold bfsRun
    simp [bfsLoop, bfsPush, neighbors]
    exact ⟨by decide, by decide⟩
  have hvm : vertexMapping [(0,1),(1,2),(2,3),(3,4)] 1 =
      fun x => List.indexOf x [0, 2, 4] := by
    funext x
    unfold vertexMapping sortedB
    rw [hrun]
    have hs3 : ({0, 2, 4} : Finset ℕ).sort (· ≤ ·) = [0, 2, 4] := by
      rw [Finset.sort_insert, sort_pair (by omega)]
      · intro c hc
        omega
      · decide
    rw [hs3]
  have hih : initialHyperedges [(0,1),(1,2),(2,3),(3,4)] 1 = [{0, 1}, {1, 2}] := by
    unfold initialHyperedges
    rw [hrun, hvm]
    have hsA : ({1, 3} : Finset ℕ).sort (· ≤ ·) = [1, 3] := sort_pair (by omega)
    simp only
    rw [hsA]
    decide
  have hfs : finalHyperedgeSets 0 [(0,1),(1,2),(2,3),(3,4)] 1 (fun _ _ => 1) =
      [{0, 1}, {1, 2}] := by
    unfold finalHyperedgeSets numVertices
    rw [hih, hrun]
    decide
  rw [tree_ok_result [(0,1),(1,2),(2,3),(3,4)] 1 (fun _ _ => 1) true (by omega)
    (by norm_num)]
  unfold treeResult
  rw [hfs]
  rw [if_pos (by exact ⟨rfl, by norm_num⟩)]
  have hsp : spernerFilter (dedupFirst [({0, 1} : Finset ℕ), {1, 2}]) =
      [{0, 1}, {1, 2}] := by decide
  rw [hsp]
  simp only [List.map_cons, List.map_nil]
  rw [sort_pair (by omega), sort_pair (by omega)]
  rfl

/-- Witness for C4: in the output `{(0,1), (1,2)}` of the run above,
`(0,1)` is not properly contained in `(1,2)`. -/
theorem claim_C4_sperner_antichain_witness :
    ¬ ([0, 1] : List ℕ).toFinset ⊂ ([1, 2] : List ℕ).toFinset :=
  claim_C4_sperner_antichain tree_eval_path (by decide) (by decide)

end HG

namespace HG

/-- An empty stack ends the search regardless of fuel. -/
theorem dfsLoop_nil {n : ℕ} (adj : ℕ → ℕ → Bool) (fuel : ℕ)
    (visited comp : Finset (Fin n)) :
    dfsLoop n adj fuel visited comp [] = (visited, comp) := by
  cases fuel with
  | zero => rfl
  | succ f => rfl

/-- The measure `(univ \ visited).card * (n + 2) + stack.length` bounds the
running time of the search: any fuel at least the measure gives the same
result as any larger fuel, so the fueled search agrees with the source's
unbounded while-loop. Each step either pops one stack entry or also visits a
new node, pushing at most `n` indices. -/
theorem dfsLoop_fuel_stable {n : ℕ} (adj : ℕ → ℕ → Bool) :
    ∀ (fuel : ℕ) (visited comp : Finset (Fin n)) (stack : List (Fin n))
      (extra : ℕ),
      ((Finset.univ : Finset (Fin n)) \ visited).card * (n + 2) +
        stack.length ≤ fuel →
      dfsLoop n adj (fuel + extra) visited comp stack =
        dfsLoop n adj fuel visited comp stack := by
  intro fuel
  induction fuel with
  | zero =>
    intro visited comp stack extra hb
    have hstack : stack = [] := by
      cases stack with
      | nil => rfl
      | cons a l => simp at hb
    subst hstack
    rw [dfsLoop_nil, dfsLoop_nil]
  | succ fuel ih =>
    intro visited comp stack extra hb
    cases stack with
    | nil => rw [dfsLoop_nil, dfsLoop_nil]
    | cons node rest =>
      have hadd : fuel + 1 + extra = (fuel + extra) + 1 := by omega
      rw [hadd]
      by_cases hv : node ∈ visited
      · rw [dfsLoop, if_pos hv, dfsLoop, if_pos hv]
        apply ih
        simp only [List.length_cons] at hb
        omega
      · rw [dfsLoop, if_neg hv, dfsLoop, if_neg hv]
        apply ih
        have h2 : node ∈ Finset.univ \ visited :=
          Finset.mem_sdiff.mpr ⟨Finset.mem_univ _, hv⟩
        have h1 : (Finset.univ : Finset (Fin n)) \ insert node visited =
            (Finset.univ \ visited).erase node := Finset.sdiff_insert _ _ _
        have h3 : ((Finset.univ \ visited).erase node).card =
            (Finset.univ \ visited).card - 1 := Finset.card_erase_of_mem h2
        have h4 : 1 ≤ ((Finset.univ : Finset (Fin n)) \ visited).card :=
          Finset.card_pos.mpr ⟨node, h2⟩
        have h5 : (((List.finRange n).filter
            (fun j => decide (j ∉ insert node visited) &&
              adj node.val j.val)).length ≤ n) := by
          calc ((List.finRange n).filter _).length
              ≤ (List.finRange n).length := List.length_filter_le _ _
            _ = n := List.length_finRange n
        have hmul : ((Finset.univ : Finset (Fin n)) \ visited).card * (n + 2) =
            (((Finset.univ : Finset (Fin n)) \ visited).card - 1) * (n + 2) +
              (n + 2) := by
          obtain ⟨c, hc⟩ : ∃ c,
              ((Finset.univ : Finset (Fin n)) \ visited).card = c + 1 :=
            ⟨((Finset.univ : Finset (Fin n)) \ visited).card - 1, by omega⟩
          rw [hc, Nat.succ_sub_one, Nat.add_mul, one_mul]
        have hb2 : ((Finset.univ : Finset (Fin n)) \ visited).card * (n + 2) +
            (rest.length + 1) ≤ fuel + 1 := by
          simpa using hb
        rw [h1, h3]
        simp only [List.length_append, List.length_reverse]
        omega

/-- The fuel `n * (n + 2) + 1` used by `ccLoop` is enough: adding any extra
fuel to a search started on a one-element stack changes nothing. -/
theorem dfsLoop_fuel_enough {n : ℕ} (adj : ℕ → ℕ → Bool)
    (visited comp : Finset (Fin n)) (i : Fin n) (extra : ℕ) :
    dfsLoop n adj (n * (n + 2) + 1 + extra) visited comp [i] =
      dfsLoop n adj (n * (n + 2) + 1) visited comp [i] := by
  apply dfsLoop_fuel_stable
  have hcard : ((Finset.univ : Finset (Fin n)) \ visited).card ≤ n := by
    calc ((Finset.univ : Finset (Fin n)) \ visited).card
        ≤ (Finset.univ : Finset (Fin n)).card := Finset.card_le_univ _
      _ = n := Finset.card_fin n
  have := Nat.mul_le_mul_right (n + 2) hcard
  simp only [List.length_cons, List.length_nil]
  omega

end HG
